import Mathlib

/-!
Verification of the log/output redaction engine of the terraform-provider-yggdrasil
repository (internal/utils/redaction.go), as a shallow embedding in Lean.

Go strings and byte slices are modelled as lists of byte values (`List Nat`,
every element < 256 for meaningful inputs).  `len`, slicing and substring
search in Go are byte-based, and the model follows the bytes exactly; in
particular the ellipsis character used by TruncatePreview is three UTF-8
bytes.  `strings.ToLower` and `strings.EqualFold` are modelled by ASCII case
folding (the sensitivity vocabulary and all scanned keywords are pure ASCII;
Go additionally folds non-ASCII letters, which cannot affect containment of
the ASCII keywords modelled here).
-/

namespace Ygg

/-- Byte strings: Go `string` / `[]byte` as a list of byte values. -/
abbrev B : Type := List Nat

/-- Bytes of an ASCII Lean string literal (used only on ASCII literals,
where each character is one byte). -/
def asciiBytes (s : String) : B := s.data.map Char.toNat

/-- The three UTF-8 bytes of the horizontal-ellipsis character that
TruncatePreview splices between head and tail. -/
def ellipsisBytes : B := [0xE2, 0x80, 0xA6]

/-- ASCII lower-casing of one byte, as `strings.ToLower` acts on ASCII. -/
def lowerByte (c : Nat) : Nat := if 65 ≤ c ∧ c ≤ 90 then c + 32 else c

/-- `strings.ToLower`, byte-wise on ASCII letters. -/
def toLower (s : B) : B := s.map lowerByte

/-- `strings.Contains s sub`: `sub` occurs as a contiguous substring of `s`. -/
def containsSub (s sub : B) : Bool := decide (sub <:+: s)

/-- redaction.go: `RedactionMask = "****"`. -/
def RedactionMask : B := asciiBytes "****"

/-- redaction.go: `maxPreviewLen = 16`. -/
def maxPreviewLen : Nat := 16

/-- redaction.go: the package-level `sensitiveKeySubstr` vocabulary. -/
def sensitiveKeySubstr : List B :=
  [asciiBytes "token", asciiBytes "secret", asciiBytes "password",
   asciiBytes "passwd", asciiBytes "apikey", asciiBytes "api_key",
   asciiBytes "authorization", asciiBytes "auth", asciiBytes "credential",
   asciiBytes "private", asciiBytes "key", asciiBytes "cert",
   asciiBytes "certificate", asciiBytes "pem", asciiBytes "jwt",
   asciiBytes "bearer", asciiBytes "value"]

/-- redaction.go `IsSensitiveKey`: lower-case the key and test containment
of each vocabulary entry. -/
def IsSensitiveKey (key : B) : Bool :=
  sensitiveKeySubstr.any (fun sub => containsSub (toLower key) sub)

/-- redaction.go `RedactString`: constantly the mask. -/
def RedactString (_s : B) : B := RedactionMask

/-- redaction.go `TruncatePreview`: strings of byte length at most 16 pass
through; longer strings become first 8 bytes ++ ellipsis ++ last 8 bytes. -/
def TruncatePreview (s : B) : B :=
  if s.length ≤ maxPreviewLen then s
  else s.take (maxPreviewLen / 2) ++ ellipsisBytes
         ++ s.drop (s.length - maxPreviewLen / 2)

mutual
/-- The loosely-typed values (`any`) that redaction.go's SafeValue/SafeFields
distinguish by type switch: strings, `map[string]any`, `map[string]string`,
and everything else (numbers, booleans, nil, ...), which the code treats
uniformly and is modelled by an opaque-but-comparable tag. -/
inductive GoVal where
  | vStr (s : B)
  | vMapAny (m : GoFields)
  | vMapStr (m : List (B × B))
  | vOther (tag : Nat)
/-- The entries of a `map[string]any` (modelled as an association list). -/
inductive GoFields where
  | nil
  | cons (k : B) (v : GoVal) (tl : GoFields)
end

/-- redaction.go `SafeValue`: mask when the key is sensitive, preview string
values, pass everything else through. -/
def SafeValue (key : B) (v : GoVal) : GoVal :=
  if IsSensitiveKey key then .vStr RedactionMask
  else
    match v with
    | .vStr x => .vStr (TruncatePreview x)
    | x => x

/-- redaction.go `SafeFields`: walk a `map[string]any`; nested
`map[string]any` values are recursively walked, `map[string]string` values
are rebuilt entry-wise through SafeValue under the inner keys, and all other
values go through SafeValue under their own key. -/
def SafeFields : GoFields → GoFields
  | .nil => .nil
  | .cons k v tl =>
    match v with
    | .vMapAny t => .cons k (.vMapAny (SafeFields t)) (SafeFields tl)
    | .vMapStr t =>
        .cons k (.vMapAny (ofStrMap t)) (SafeFields tl)
    | v => .cons k (SafeValue k v) (SafeFields tl)
where
  /-- The inner loop of the `map[string]string` case of SafeFields. -/
  ofStrMap : List (B × B) → GoFields
    | [] => .nil
    | (kk, vv) :: rest => .cons kk (SafeValue kk (.vStr vv)) (ofStrMap rest)

/-!
## JSON model

`encoding/json`'s generic decoding (`json.Unmarshal` into `any`) and
encoding (`json.Marshal` of the decoded tree) are modelled over byte lists.
Numbers are kept as their raw lexeme (Go converts to float64 and re-prints a
canonical shortest form; keeping the lexeme diverges from Go only in the
textual form of re-serialized numbers, never in which documents are accepted
or in the shape of the tree, and neither form can change any redaction
decision). String contents are raw bytes; Go's replacement of invalid UTF-8
by U+FFFD and its decode depth limit and float64 range check are not
modelled (each only moves inputs between the fail-open branch and the
redacted branch of the adapter, both of which are covered below).
-/

mutual
/-- A decoded generic JSON value (Go `any` after `json.Unmarshal`). -/
inductive Json where
  | null
  | bool (b : Bool)
  | num (lex : B)
  | str (s : B)
  | arr (xs : JArr)
  | obj (fs : JObj)
/-- JSON array elements. -/
inductive JArr where
  | nil
  | cons (hd : Json) (tl : JArr)
/-- JSON object members; Go's `map[string]any` is modelled as an association
list whose later duplicate assignments overwrite earlier ones (`objSet`),
and whose serialization sorts keys, matching map semantics observably. -/
inductive JObj where
  | nil
  | cons (k : B) (v : Json) (tl : JObj)
end

/-- Byte-wise lexicographic order on byte strings (Go string `<=`). -/
def lexLe : B → B → Bool
  | [], _ => true
  | _ :: _, [] => false
  | a :: s, b :: t => if a < b then true else if b < a then false else lexLe s t

/-- Insert a member into a key-sorted member list (for `sortFields`). -/
def insField (k : B) (v : Json) : JObj → JObj
  | .nil => .cons k v .nil
  | .cons k0 v0 tl =>
    if lexLe k k0 then .cons k v (.cons k0 v0 tl)
    else .cons k0 v0 (insField k v tl)

/-- Sort object members by key (Go `json.Marshal` sorts map keys). -/
def sortFields : JObj → JObj
  | .nil => .nil
  | .cons k v tl => insField k v (sortFields tl)

/-- Go map assignment `m[k] = v` on the association-list model: overwrite
the value of an existing key, otherwise append. -/
def objSet : JObj → B → Json → JObj
  | .nil, k, v => .cons k v .nil
  | .cons k0 v0 tl, k, v =>
    if k0 = k then .cons k0 v tl else .cons k0 v0 (objSet tl k v)

/-- Lower-case hex digit of a value below 16 (Go's JSON escaper). -/
def hexDigitLower (n : Nat) : Nat := if n < 10 then 48 + n else 87 + n

/-- Go `encoding/json` escaping of one string byte (default encoder:
HTML-escapes `<`, `>`, `&`; `\uXXXX` for control bytes other than
tab/newline/carriage-return). -/
def escByte (c : Nat) : B :=
  if c = 34 then [92, 34]
  else if c = 92 then [92, 92]
  else if c = 10 then [92, 110]
  else if c = 13 then [92, 114]
  else if c = 9 then [92, 116]
  else if c < 32 then [92, 117, 48, 48, hexDigitLower (c / 16), hexDigitLower (c % 16)]
  else if c = 60 then [92, 117, 48, 48, 51, 99]
  else if c = 62 then [92, 117, 48, 48, 51, 101]
  else if c = 38 then [92, 117, 48, 48, 50, 54]
  else [c]

/-- Go `encoding/json` string-content escaping (byte-wise, with the two
three-byte sequences U+2028/U+2029 escaped as Go does). -/
def escapeJSON : B → B
  | [] => []
  | [c] => escByte c
  | [c, d] => escByte c ++ escByte d
  | c :: d :: e :: rest =>
    if c = 0xE2 ∧ d = 0x80 ∧ e = 0xA8 then [92, 117, 50, 48, 50, 56] ++ escapeJSON rest
    else if c = 0xE2 ∧ d = 0x80 ∧ e = 0xA9 then [92, 117, 50, 48, 50, 57] ++ escapeJSON rest
    else escByte c ++ escapeJSON (d :: e :: rest)

mutual
/-- Recursively sort every object member list by key.  Applied before the
plain serializer `serJson`, this realizes Go `json.Marshal`'s sorting of
map keys at every level. -/
def sortJ : Json → Json
  | .obj fs => .obj (sortFields (sortValsO fs))
  | .arr xs => .arr (sortValsA xs)
  | t => t
/-- `sortJ` applied to every member value. -/
def sortValsO : JObj → JObj
  | .nil => .nil
  | .cons k v tl => .cons k (sortJ v) (sortValsO tl)
/-- `sortJ` applied to every array element. -/
def sortValsA : JArr → JArr
  | .nil => .nil
  | .cons v tl => .cons (sortJ v) (sortValsA tl)
end

mutual
/-- Serialize a decoded tree compactly, emitting object members in their
list order (Go `json.Marshal` is `serJson` after `sortJ`; see
`jsonMarshal`). -/
def serJson : Json → B
  | .null => [110, 117, 108, 108]
  | .bool true => [116, 114, 117, 101]
  | .bool false => [102, 97, 108, 115, 101]
  | .num lex => lex
  | .str s => 34 :: (escapeJSON s ++ [34])
  | .arr xs => 91 :: (serElems xs ++ [93])
  | .obj fs => 123 :: (serMembers fs ++ [125])
/-- Comma-separated serialization of array elements. -/
def serElems : JArr → B
  | .nil => []
  | .cons v .nil => serJson v
  | .cons v tl => serJson v ++ 44 :: serElems tl
/-- Comma-separated serialization of object members in list order. -/
def serMembers : JObj → B
  | .nil => []
  | .cons k v .nil => 34 :: (escapeJSON k ++ 34 :: 58 :: serJson v)
  | .cons k v tl =>
      (34 :: (escapeJSON k ++ 34 :: 58 :: serJson v)) ++ 44 :: serMembers tl
end

/-- Go `json.Marshal` of a decoded tree: compact output, object keys
sorted at every level, strings escaped, number lexemes re-emitted. -/
def jsonMarshal (t : Json) : B := serJson (sortJ t)

/-- JSON insignificant whitespace bytes. -/
def wsByte (c : Nat) : Bool := c = 32 ∨ c = 9 ∨ c = 10 ∨ c = 13

/-- Drop leading JSON whitespace. -/
def skipWs : B → B
  | [] => []
  | c :: rest => if wsByte c then skipWs rest else c :: rest

/-- Value of one hex digit byte. -/
def hexVal (c : Nat) : Option Nat :=
  if 48 ≤ c ∧ c ≤ 57 then some (c - 48)
  else if 97 ≤ c ∧ c ≤ 102 then some (c - 87)
  else if 65 ≤ c ∧ c ≤ 70 then some (c - 55)
  else none

/-- UTF-8 encoding of a code point (as Go `utf8.EncodeRune` for valid
code points). -/
def utf8Encode (cp : Nat) : B :=
  if cp < 0x80 then [cp]
  else if cp < 0x800 then [0xC0 + cp / 0x40, 0x80 + cp % 0x40]
  else if cp < 0x10000 then
    [0xE0 + cp / 0x1000, 0x80 + cp / 0x40 % 0x40, 0x80 + cp % 0x40]
  else [0xF0 + cp / 0x40000, 0x80 + cp / 0x1000 % 0x40,
        0x80 + cp / 0x40 % 0x40, 0x80 + cp % 0x40]

/-- Decoded byte of a single-character JSON escape (other than `\\u`). -/
def escDecode (e : Nat) : Option Nat :=
  if e = 34 then some 34
  else if e = 92 then some 92
  else if e = 47 then some 47
  else if e = 98 then some 8
  else if e = 102 then some 12
  else if e = 110 then some 10
  else if e = 114 then some 13
  else if e = 116 then some 9
  else none

/-- Four hex digits and the remainder (Go `getu4`'s digits). -/
def hex4 : B → Option (Nat × B)
  | h1 :: h2 :: h3 :: h4 :: rest =>
    (match hexVal h1, hexVal h2, hexVal h3, hexVal h4 with
     | some a, some b, some c, some d => some (((a * 16 + b) * 16 + c) * 16 + d, rest)
     | _, _, _, _ => none)
  | _ => none

/-- A literal `\\uXXXX` escape at the head of the input (Go `getu4`). -/
def uEsc : B → Option (Nat × B)
  | 92 :: 117 :: rest => hex4 rest
  | _ => none

/-- Fuel-indexed worker for `parseStr`; each step consumes at least one
input byte, so fuel `length + 1` (what `parseStr` passes) never runs out. -/
def parseStrF : Nat → B → Option (B × B)
  | 0, _ => none
  | Nat.succ _, [] => none
  | Nat.succ f, c :: rest =>
    if c = 34 then some ([], rest)
    else if c = 92 then
      match rest with
      | [] => none
      | e :: rest1 =>
        if e = 117 then
          match hex4 rest1 with
          | none => none
          | some (cp, rest2) =>
            if 0xD800 ≤ cp ∧ cp ≤ 0xDFFF then
              match uEsc rest2 with
              | some (cp2, rest3) =>
                if cp < 0xDC00 ∧ 0xDC00 ≤ cp2 ∧ cp2 ≤ 0xDFFF then
                  (parseStrF f rest3).map (fun p =>
                    (utf8Encode (0x10000 + (cp - 0xD800) * 0x400 + (cp2 - 0xDC00)) ++ p.1, p.2))
                else (parseStrF f rest2).map (fun p => (utf8Encode 0xFFFD ++ p.1, p.2))
              | none => (parseStrF f rest2).map (fun p => (utf8Encode 0xFFFD ++ p.1, p.2))
            else (parseStrF f rest2).map (fun p => (utf8Encode cp ++ p.1, p.2))
        else
          match escDecode e with
          | some d => (parseStrF f rest1).map (fun p => (d :: p.1, p.2))
          | none => none
    else if c < 32 then none
    else (parseStrF f rest).map (fun p => (c :: p.1, p.2))

/-- Parse the contents of a JSON string after the opening quote, decoding
escapes as Go's scanner/unquoter does (including `\\uXXXX` with surrogate
pairing, lone surrogates becoming U+FFFD); returns the decoded content and
the input after the closing quote. -/
def parseStr (b : B) : Option (B × B) := parseStrF (b.length + 1) b

/-- Is a byte an ASCII digit. -/
def isDigit (c : Nat) : Bool := 48 ≤ c ∧ c ≤ 57

/-- Longest digit prefix and the remainder. -/
def takeDigits : B → (B × B)
  | [] => ([], [])
  | c :: rest =>
    if isDigit c then
      let p := takeDigits rest
      (c :: p.1, p.2)
    else ([], c :: rest)

/-- Integer part of a JSON number without sign: `0` or a nonzero digit
followed by digits. -/
def intPart : B → Option (B × B)
  | [] => none
  | c :: rest =>
    if c = 48 then some ([48], rest)
    else if isDigit c then
      let p := takeDigits rest
      some (c :: p.1, p.2)
    else none

/-- Optional leading minus sign plus integer part. -/
def numInt : B → Option (B × B)
  | [] => none
  | c :: rest =>
    if c = 45 then (intPart rest).map (fun p => (45 :: p.1, p.2))
    else intPart (c :: rest)

/-- Optional fraction part: a dot must be followed by at least one digit. -/
def numFrac : B → Option (B × B)
  | [] => some ([], [])
  | c :: rest =>
    if c = 46 then
      match rest with
      | [] => none
      | d :: rest2 =>
        if isDigit d then
          let p := takeDigits rest2
          some (46 :: d :: p.1, p.2)
        else none
    else some ([], c :: rest)

/-- Exponent digits after `e`/`E` and an optional sign. -/
def expDigits : B → Option (B × B)
  | [] => none
  | s :: rest =>
    if s = 43 ∨ s = 45 then
      match rest with
      | c :: rest2 =>
        if isDigit c then
          let p := takeDigits rest2
          some (s :: c :: p.1, p.2)
        else none
      | [] => none
    else if isDigit s then
      let p := takeDigits rest
      some (s :: p.1, p.2)
    else none

/-- Optional exponent part. -/
def numExp : B → Option (B × B)
  | c :: rest =>
    if c = 101 ∨ c = 69 then (expDigits rest).map (fun p => (c :: p.1, p.2))
    else some ([], c :: rest)
  | [] => some ([], [])

/-- Lex a JSON number (Go scanner grammar); returns the lexeme and the
remainder. -/
def parseNum (b : B) : Option (B × B) :=
  match numInt b with
  | none => none
  | some (i, r1) =>
    match numFrac r1 with
    | none => none
    | some (fr, r2) =>
      match numExp r2 with
      | none => none
      | some (ex, r3) => some (i ++ (fr ++ ex), r3)

mutual
/-- Fuel-indexed recursive-descent parser for one JSON value (the fuel only
bounds recursion depth; `jsonUnmarshal` supplies enough for any input). -/
def parseValue : Nat → B → Option (Json × B)
  | 0, _ => none
  | Nat.succ f, b =>
    match skipWs b with
    | [] => none
    | c :: rest =>
      if c = 123 then (parseObjBody f rest).map (fun p => (Json.obj p.1, p.2))
      else if c = 91 then (parseArrBody f rest).map (fun p => (Json.arr p.1, p.2))
      else if c = 34 then (parseStr rest).map (fun p => (Json.str p.1, p.2))
      else if c = 116 then
        match rest with
        | 114 :: 117 :: 101 :: rest2 => some (Json.bool true, rest2)
        | _ => none
      else if c = 102 then
        match rest with
        | 97 :: 108 :: 115 :: 101 :: rest2 => some (Json.bool false, rest2)
        | _ => none
      else if c = 110 then
        match rest with
        | 117 :: 108 :: 108 :: rest2 => some (Json.null, rest2)
        | _ => none
      else (parseNum (c :: rest)).map (fun p => (Json.num p.1, p.2))
/-- Parse an object body after `{`: empty object or members. -/
def parseObjBody : Nat → B → Option (JObj × B)
  | 0, _ => none
  | Nat.succ f, b =>
    match skipWs b with
    | 125 :: rest => some (.nil, rest)
    | other => parseMembers f other .nil
/-- Parse one or more `"key": value` members, accumulating with `objSet`
(later duplicate keys overwrite, as for a Go map). -/
def parseMembers : Nat → B → JObj → Option (JObj × B)
  | 0, _, _ => none
  | Nat.succ f, b, acc =>
    match skipWs b with
    | 34 :: rest =>
      (match parseStr rest with
       | none => none
       | some (k, rest2) =>
         match skipWs rest2 with
         | 58 :: rest3 =>
           (match parseValue f rest3 with
            | none => none
            | some (v, rest4) =>
              match skipWs rest4 with
              | 44 :: rest5 => parseMembers f rest5 (objSet acc k v)
              | 125 :: rest5 => some (objSet acc k v, rest5)
              | _ => none)
         | _ => none)
    | _ => none
/-- Parse an array body after `[`: empty array or elements. -/
def parseArrBody : Nat → B → Option (JArr × B)
  | 0, _ => none
  | Nat.succ f, b =>
    match skipWs b with
    | 93 :: rest => some (.nil, rest)
    | _ => parseElems f b
/-- Parse one or more comma-separated array elements up to `]`. -/
def parseElems : Nat → B → Option (JArr × B)
  | 0, _ => none
  | Nat.succ f, b =>
    match parseValue f b with
    | none => none
    | some (v, rest) =>
      match skipWs rest with
      | 44 :: rest2 => (parseElems f rest2).map (fun p => (JArr.cons v p.1, p.2))
      | 93 :: rest2 => some (JArr.cons v .nil, rest2)
      | _ => none
end

/-- Go `json.Unmarshal` into `any`: one complete JSON value, with only
whitespace around it; `none` on any parse error. -/
def jsonUnmarshal (b : B) : Option Json :=
  match parseValue (2 * b.length + 2) b with
  | none => none
  | some (t, rest) => if skipWs rest = [] then some t else none

mutual
/-- redaction.go `redactJSONNode`: mask the whole value of a sensitive key,
recurse into non-sensitive members and array elements, preview string
leaves, pass other scalars through. -/
def redactJSONNode : Json → Json
  | .obj fs => .obj (redactObj fs)
  | .arr xs => .arr (redactArr xs)
  | .str s => .str (TruncatePreview s)
  | t => t
/-- The object-member loop of `redactJSONNode`. -/
def redactObj : JObj → JObj
  | .nil => .nil
  | .cons k v tl =>
    if IsSensitiveKey k then .cons k (.str RedactionMask) (redactObj tl)
    else .cons k (redactJSONNode v) (redactObj tl)
/-- The array-element loop of `redactJSONNode`. -/
def redactArr : JArr → JArr
  | .nil => .nil
  | .cons v tl => .cons (redactJSONNode v) (redactArr tl)
end

/-- redaction.go `RedactJSONBytes`: parse, redact, re-serialize; fail open
to the original bytes when parsing fails (re-serialization of a decoded
tree cannot fail, so Go's marshal-error fallback branch is dead). -/
def RedactJSONBytes (b : B) : B :=
  match jsonUnmarshal b with
  | none => b
  | some m => jsonMarshal (redactJSONNode m)

/-!
## PEM block redaction

`RedactPEM` applies the regular expression
`-----BEGIN [^-]+-----[\s\S]+?-----END [^-]+-----` with `ReplaceAllString`.
The matcher below implements exactly this pattern's leftmost-first
semantics: at each position, try a full match (greedy nonempty non-dash
label, five dashes, shortest nonempty middle such that the END armor with
its own label follows); on a match emit the mask and continue after it,
otherwise emit the byte and move on.  (`[^-]` and `[\s\S]` match runes in
Go, but a dash byte never occurs inside a multi-byte UTF-8 sequence, so the
byte-wise reading coincides.) -/

/-- Strip an exact byte prefix, returning the remainder. -/
def dropExact : B → B → Option B
  | [], s => some s
  | _ :: _, [] => none
  | p :: pre, c :: s => if c = p then dropExact pre s else none

/-- `-----` -/
def dashes5 : B := asciiBytes "-----"

/-- `-----BEGIN ` -/
def pemBegin : B := asciiBytes "-----BEGIN "

/-- `-----END ` -/
def pemEnd : B := asciiBytes "-----END "

/-- Drop bytes up to the first dash. -/
def dropNonDash : B → B
  | [] => []
  | c :: rest => if c = 45 then c :: rest else dropNonDash rest

/-- Greedily consume a nonempty run of non-dash bytes (`[^-]+`). -/
def nonDashRun : B → Option B
  | [] => none
  | c :: rest => if c = 45 then none else some (dropNonDash rest)

/-- Match `-----END [^-]+-----` at the head of the input. -/
def pemEndAt (s : B) : Option B :=
  match dropExact pemEnd s with
  | none => none
  | some s1 =>
    match nonDashRun s1 with
    | none => none
    | some s2 => dropExact dashes5 s2

/-- Scan for the END armor after a nonempty lazy middle (`[\s\S]+?`):
consume at least one middle byte, then at each position try the END armor,
preferring the shortest middle. -/
def pemEndSearch : B → Option B
  | [] => none
  | _ :: rest =>
    match pemEndAt rest with
    | some r => some r
    | none => pemEndSearch rest

/-- Match the whole PEM armor pattern at the head of the input, returning
the remainder after the match. -/
def pemMatchAt (s : B) : Option B :=
  match dropExact pemBegin s with
  | none => none
  | some s0 =>
    match nonDashRun s0 with
    | none => none
    | some s1 =>
      match dropExact dashes5 s1 with
      | none => none
      | some s2 => pemEndSearch s2

/-- Fuel-indexed replacement loop (fuel `length` never runs out: every step
consumes at least one byte). -/
def redactPEMAux : Nat → B → B
  | 0, s => s
  | Nat.succ f, s =>
    match s with
    | [] => []
    | c :: rest =>
      match pemMatchAt s with
      | some r => RedactionMask ++ redactPEMAux f r
      | none => c :: redactPEMAux f rest

/-- redaction.go `RedactPEM`: replace every complete PEM armor block with
the mask, leftmost first, leaving all other text verbatim. -/
def RedactPEM (s : B) : B := redactPEMAux s.length s

/-- redaction.go `RedactBytesChain`: JSON redaction, then PEM redaction,
then a case-insensitive scan of the result for `authorization:` or
`bearer `; if either keyword is present the whole buffer collapses to the
bare mask. -/
def RedactBytesChain (body : B) : B :=
  let b1 := RedactJSONBytes body
  let b2 := RedactPEM b1
  let lower := toLower b2
  if containsSub lower (asciiBytes "authorization:")
      || containsSub lower (asciiBytes "bearer ") then
    RedactionMask
  else b2

/-!
## URL model

`net/url` as used by `RedactURLQuery`: `url.Parse`, `(*URL).Query`
(`ParseQuery` with its error ignored, so undecodable or
semicolon-containing pairs are silently dropped), `Values.Get`,
`Values.Set`, `Values.Encode` and `(*URL).String`.  The model keeps the
userinfo and host components as raw validated bytes (Go decodes and
re-encodes them; for every host/userinfo that Go accepts and leaves
textually unchanged the two coincide), and does not model IDN or the
rejection of percent-encoded host-forbidden bytes; these affect only which
exotic URLs count as parse failures, never what happens after a successful
parse. -/

/-- Is an ASCII letter. -/
def isAlpha (c : Nat) : Bool := (65 ≤ c ∧ c ≤ 90) ∨ (97 ≤ c ∧ c ≤ 122)

/-- Is an ASCII letter or digit. -/
def isAlnum (c : Nat) : Bool := isAlpha c || isDigit c

/-- Upper-case hex digit byte of a value below 16 (Go percent-escaping). -/
def upperHexDigit (n : Nat) : Nat := if n < 10 then 48 + n else 55 + n

/-- Go `shouldEscape(c, encodeQueryComponent)`: everything but
alphanumerics and `-_.~` is escaped in query components. -/
def shouldEscapeQuery (c : Nat) : Bool :=
  !(isAlnum c || c = 45 || c = 95 || c = 46 || c = 126)

/-- Go `url.QueryEscape`: space becomes `+`, everything else needing
escaping becomes `%XX` with upper-case hex. -/
def queryEscape : B → B
  | [] => []
  | c :: rest =>
    (if c = 32 then [43]
     else if shouldEscapeQuery c then [37, upperHexDigit (c / 16), upperHexDigit (c % 16)]
     else [c]) ++ queryEscape rest

/-- Go `url.QueryUnescape`: `+` becomes space, `%XX` decodes, anything
else passes; `none` on an invalid or truncated escape. -/
def queryUnescape : B → Option B
  | [] => some []
  | 37 :: h1 :: h2 :: rest =>
    (match hexVal h1, hexVal h2 with
     | some a, some b => (queryUnescape rest).map (fun r => (a * 16 + b) :: r)
     | _, _ => none)
  | 37 :: _ => none
  | 43 :: rest => (queryUnescape rest).map (fun r => 32 :: r)
  | c :: rest => (queryUnescape rest).map (fun r => c :: r)

/-- Percent-decoding without `+`-to-space (Go `unescape` in path, host and
fragment modes, whose only error is an invalid escape). -/
def percentDecode : B → Option B
  | [] => some []
  | 37 :: h1 :: h2 :: rest =>
    (match hexVal h1, hexVal h2 with
     | some a, some b => (percentDecode rest).map (fun r => (a * 16 + b) :: r)
     | _, _ => none)
  | 37 :: _ => none
  | c :: rest => (percentDecode rest).map (fun r => c :: r)

/-- Split at the first occurrence of a byte: the part before it, and the
part after it when it occurs (Go `strings.Cut`). -/
def cutByte (sep : Nat) : B → (B × Option B)
  | [] => ([], none)
  | c :: rest =>
    if c = sep then ([], some rest)
    else
      let p := cutByte sep rest
      (c :: p.1, p.2)

/-- Split at the last occurrence of a byte, when it occurs. -/
def lastSplit (sep : Nat) : B → Option (B × B)
  | [] => none
  | c :: rest =>
    match lastSplit sep rest with
    | some (pre, post) => some (c :: pre, post)
    | none => if c = sep then some ([], rest) else none

/-- `url.Values` as an association list from parameter name to its values,
in first-appearance order (Go's map order is hidden by `Encode`'s key
sort). -/
abbrev Values : Type := List (B × List B)

/-- Go `m[key] = append(m[key], value)` on the association-list model. -/
def appendVal : Values → B → B → Values
  | [], k, v => [(k, [v])]
  | (k0, vs) :: tl, k, v =>
    if k0 = k then (k0, vs ++ [v]) :: tl else (k0, vs) :: appendVal tl k v

/-- Process one `key=value` chunk of a query string as Go `parseQuery`
does: chunks containing a semicolon, empty chunks, and chunks whose name or
value fails query-unescaping are dropped. -/
def queryPairStep (kv : B) (acc : Values) : Values :=
  if containsSub kv [59] then acc
  else if kv = [] then acc
  else
    let kvp := cutByte 61 kv
    match queryUnescape kvp.1, queryUnescape (kvp.2.getD []) with
    | some k, some v => appendVal acc k v
    | _, _ => acc

/-- Fuel-indexed loop of `parseQueryValues` over `&`-separated chunks. -/
def parseQueryAux : Nat → B → Values → Values
  | 0, _, acc => acc
  | Nat.succ f, q, acc =>
    match q with
    | [] => acc
    | _ =>
      let p := cutByte 38 q
      let acc2 := queryPairStep p.1 acc
      match p.2 with
      | some rest => parseQueryAux f rest acc2
      | none => acc2

/-- Go `(*URL).Query()`: `ParseQuery` with its error discarded, keeping
every decodable pair. -/
def parseQueryValues (q : B) : Values := parseQueryAux (q.length + 1) q []

/-- Insert an entry into a key-sorted `Values` list. -/
def insValue (k : B) (vs : List B) : Values → Values
  | [] => [(k, vs)]
  | (k0, vs0) :: tl =>
    if lexLe k k0 then (k, vs) :: (k0, vs0) :: tl
    else (k0, vs0) :: insValue k vs tl

/-- Sort `Values` by parameter name (Go `Encode` sorts keys). -/
def sortValues : Values → Values
  | [] => []
  | (k, vs) :: tl => insValue k vs (sortValues tl)

/-- One encoded `key=value` pair. -/
def encodePair (k v : B) : B := queryEscape k ++ 61 :: queryEscape v

/-- All encoded pairs of a `Values` list, in entry order. -/
def encodePairs : Values → List B
  | [] => []
  | (k, vs) :: tl => vs.map (encodePair k) ++ encodePairs tl

/-- Join encoded pairs with `&`. -/
def joinAmp : List B → B
  | [] => []
  | [x] => x
  | x :: xs => x ++ 38 :: joinAmp xs

/-- Go `Values.Encode`: pairs sorted by name, query-escaped, joined
with `&`. -/
def encodeValues (vs : Values) : B := joinAmp (encodePairs (sortValues vs))

/-- The parsed components of a Go `url.URL` (raw userinfo/host bytes; the
decoded path/fragment together with their raw forms, as Go keeps them). -/
structure GoURL where
  scheme : B := []
  opq : B := []
  hasUser : Bool := false
  userinfo : B := []
  host : B := []
  omitHost : Bool := false
  path : B := []
  rawPath : B := []
  forceQuery : Bool := false
  rawQuery : B := []
  fragment : B := []
  rawFragment : B := []

/-- A control byte (Go `stringContainsCTLByte`). -/
def containsCTL (s : B) : Bool := s.any (fun c => c < 32 || c = 127)

/-- Go `getScheme`: the scheme before a `:` (letters then
letters/digits/`+-.`), or no scheme; `none` for a leading `:`. -/
def getScheme (s : B) : Option (B × B) :=
  go [] s
where
  /-- The scan loop; `acc` holds the candidate scheme so far. -/
  go (acc : B) : B → Option (B × B)
    | [] => some ([], s)
    | c :: rest =>
      if isAlpha c then go (acc ++ [c]) rest
      else if isDigit c || c = 43 || c = 45 || c = 46 then
        if acc = [] then some ([], s) else go (acc ++ [c]) rest
      else if c = 58 then
        if acc = [] then none else some (acc, rest)
      else some ([], s)

/-- Go `validOptionalPort`: empty, or `:` followed by digits only. -/
def validOptionalPort (p : B) : Bool :=
  match p with
  | [] => true
  | 58 :: ds => ds.all (fun c => isDigit c)
  | _ => false

/-- Go `validUserinfo`. -/
def validUserinfo (s : B) : Bool :=
  s.all (fun c => isAlnum c ||
    c ∈ [45, 46, 95, 58, 126, 33, 36, 38, 39, 40, 41, 42, 43, 44, 59, 61, 37, 64])

/-- Go `shouldEscape(c, encodeHost)`. -/
def shouldEscapeHost (c : Nat) : Bool :=
  if isAlnum c then false
  else if c ∈ [33, 36, 38, 39, 40, 41, 42, 43, 44, 59, 61, 58, 91, 93, 60, 62, 34] then false
  else if c = 45 ∨ c = 95 ∨ c = 46 ∨ c = 126 then false
  else true

/-- Go `unescape(host, encodeHost)`'s acceptance: plain ASCII bytes that
would need escaping are rejected, and a percent-escape must encode a
non-ASCII byte (first hex digit at least 8) or be the literal `%25`. -/
def hostBytesOK : B → Bool
  | [] => true
  | 37 :: h1 :: h2 :: rest =>
    (match hexVal h1, hexVal h2 with
     | some a, _ => ((8 ≤ a : Bool) || (h1 = 50 ∧ h2 = 53)) && (hexVal h2).isSome
          && hostBytesOK rest
     | none, _ => false)
  | 37 :: _ => false
  | c :: rest => !(c < 128 && shouldEscapeHost c) && hostBytesOK rest

/-- Go `parseHost`'s acceptance: bracket/port structure plus the host-mode
byte and escape restrictions. -/
def hostOK (host : B) : Bool :=
  (match host with
   | 91 :: _ =>
     (match lastSplit 93 host with
      | some (_, post) => validOptionalPort post
      | none => false)
   | _ =>
     match lastSplit 58 host with
     | some (_, post) => validOptionalPort (58 :: post)
     | none => true)
  && hostBytesOK host

/-- Go `shouldEscape(c, encodePath)`. -/
def shouldEscapePath (c : Nat) : Bool :=
  if isAlnum c then false
  else if c = 45 ∨ c = 95 ∨ c = 46 ∨ c = 126 then false
  else if c = 36 ∨ c = 38 ∨ c = 43 ∨ c = 44 ∨ c = 47 ∨ c = 58 ∨ c = 59
      ∨ c = 61 ∨ c = 63 ∨ c = 64 then decide (c = 63)
  else true

/-- Go `shouldEscape(c, encodeFragment)`. -/
def shouldEscapeFragment (c : Nat) : Bool :=
  if isAlnum c then false
  else if c = 45 ∨ c = 95 ∨ c = 46 ∨ c = 126 then false
  else if c = 36 ∨ c = 38 ∨ c = 43 ∨ c = 44 ∨ c = 47 ∨ c = 58 ∨ c = 59
      ∨ c = 61 ∨ c = 63 ∨ c = 64 then false
  else if c = 33 ∨ c = 40 ∨ c = 41 ∨ c = 42 then false
  else true

/-- Percent-escape the bytes a predicate selects (Go `escape` in the
non-query modes). -/
def escapeWith (f : Nat → Bool) : B → B
  | [] => []
  | c :: rest =>
    (if f c then [37, upperHexDigit (c / 16), upperHexDigit (c % 16)] else [c])
      ++ escapeWith f rest

/-- Go `validEncoded(s, encodePath)`. -/
def validEncodedPath (s : B) : Bool :=
  s.all (fun c =>
    c ∈ [33, 36, 38, 39, 40, 41, 42, 43, 44, 59, 61, 58, 64]
      || c = 91 || c = 93 || c = 37 || !shouldEscapePath c)

/-- Go `validEncoded(s, encodeFragment)`. -/
def validEncodedFragment (s : B) : Bool :=
  s.all (fun c =>
    c ∈ [33, 36, 38, 39, 40, 41, 42, 43, 44, 59, 61, 58, 64]
      || c = 91 || c = 93 || c = 37 || !shouldEscapeFragment c)

/-- Go `(*URL).EscapedPath()`: the raw form when it is a valid encoding of
the decoded path, otherwise a fresh escaping. -/
def escapedPathOf (path rawPath : B) : B :=
  if rawPath ≠ [] ∧ validEncodedPath rawPath = true ∧ percentDecode rawPath = some path
  then rawPath
  else escapeWith shouldEscapePath path

/-- Go `(*URL).EscapedFragment()`. -/
def escapedFragmentOf (fragment rawFragment : B) : B :=
  if rawFragment ≠ [] ∧ validEncodedFragment rawFragment = true
      ∧ percentDecode rawFragment = some fragment
  then rawFragment
  else escapeWith shouldEscapeFragment fragment

/-- Go `url.Parse` (`viaRequest = false`): split the fragment, reject
control bytes, read the scheme, split the query (with the trailing-`?`
`ForceQuery` case), then classify into opaque, authority (`//`) and path
forms, validating userinfo, host, path and fragment escapes. -/
def parseURL (rawURL : B) : Option GoURL :=
  let pf := cutByte 35 rawURL
  let pre := pf.1
  if containsCTL pre then none
  else
    let fragPart : GoURL → Option GoURL := fun u =>
      match pf.2 with
      | none => some u
      | some fr =>
        if fr = [] then some u
        else
          match percentDecode fr with
          | some fdec => some { u with fragment := fdec, rawFragment := fr }
          | none => none
    if pre = [42] then fragPart { path := [42] }
    else
      match getScheme pre with
      | none => none
      | some (schemeRaw, rest0) =>
        let scheme := toLower schemeRaw
        let fq : Bool := rest0.getLast? = some 63
            ∧ ¬ (63 ∈ rest0.dropLast)
        let rest1 := if fq then rest0.dropLast else rest0
        let rq := if fq then ([] : B) else ((cutByte 63 rest0).2.getD [])
        let rest := if fq then rest1 else (cutByte 63 rest0).1
        if rest.head? ≠ some 47 ∧ scheme ≠ [] then
          fragPart { scheme := scheme, opq := rest, forceQuery := fq, rawQuery := rq }
        else if rest.head? ≠ some 47 ∧ scheme = []
            ∧ ((cutByte 47 rest).1.contains 58) then none
        else
          let hasAuth : Bool := (scheme ≠ [] ∨ ¬ (rest.take 3 = [47, 47, 47]))
              ∧ rest.take 2 = [47, 47]
          let parts : Option (Bool × B × B × Bool × B) :=
            if hasAuth then
              let a := cutByte 47 (rest.drop 2)
              let auth := a.1
              let pathRest := match a.2 with
                | some after => 47 :: after
                | none => []
              match lastSplit 64 auth with
              | some (ui, h) =>
                if validUserinfo ui ∧ (percentDecode ui).isSome ∧ hostOK h
                then some (true, ui, h, false, pathRest)
                else none
              | none =>
                if hostOK auth then some (false, [], auth, false, pathRest) else none
            else
              some (false, [], [], scheme ≠ [] ∧ rest.head? = some 47, rest)
          match parts with
          | none => none
          | some (hUser, ui, h, om, pathRest) =>
            match percentDecode pathRest with
            | none => none
            | some p =>
              fragPart { scheme := scheme, hasUser := hUser, userinfo := ui,
                         host := h, omitHost := om, path := p,
                         rawPath := pathRest, forceQuery := fq, rawQuery := rq }

/-- Go `(*URL).String()`. -/
def urlString (u : GoURL) : B :=
  let base := if u.scheme ≠ [] then u.scheme ++ [58] else []
  let mid :=
    if u.opq ≠ [] then u.opq
    else
      let auth :=
        if u.scheme ≠ [] ∨ u.host ≠ [] ∨ u.hasUser then
          if u.omitHost ∧ u.host = [] ∧ ¬ u.hasUser then []
          else
            (if u.host ≠ [] ∨ u.path ≠ [] ∨ u.hasUser then [47, 47] else [])
              ++ (if u.hasUser then u.userinfo ++ [64] else [])
              ++ escapeWith shouldEscapeHost u.host
        else []
      let p0 := escapedPathOf u.path u.rawPath
      let p := if p0 ≠ [] ∧ p0.head? ≠ some 47 ∧ u.host ≠ [] then 47 :: p0 else p0
      auth ++
        (if base = [] ∧ auth = [] ∧ ((cutByte 47 p).1.contains 58)
         then asciiBytes "./" ++ p else p)
  base ++ mid
    ++ (if u.forceQuery ∨ u.rawQuery ≠ [] then 63 :: u.rawQuery else [])
    ++ (if u.fragment ≠ [] then 35 :: escapedFragmentOf u.fragment u.rawFragment else [])

/-- redaction.go `containsFold`: membership up to case folding. -/
def containsFold (list : List B) (s : B) : Bool :=
  list.any (fun x => toLower x = toLower s)

/-- The query-rewriting loop of `RedactURLQuery`: every parameter is `Set`
to the single mask value when its name is sensitive (by vocabulary or by a
caller-supplied extra name), and otherwise to the preview of its first
value. -/
def redactValues (extras : List B) (q : Values) : Values :=
  q.map (fun kv =>
    (kv.1,
     [if IsSensitiveKey kv.1 || containsFold extras kv.1 then RedactionMask
      else TruncatePreview (kv.2.headD [])]))

/-- redaction.go `RedactURLQuery`: parse (fail open to the input), rewrite
the query through `redactValues`, re-encode and re-serialize. -/
def RedactURLQuery (raw : B) (extraSensitiveKeys : List B) : B :=
  match parseURL raw with
  | none => raw
  | some u =>
    urlString { u with
      rawQuery := encodeValues (redactValues extraSensitiveKeys
        (parseQueryValues u.rawQuery)) }

/-!
## Specification predicates and measures

Auxiliary definitions the theorems below are stated with: key-shape trees,
well-formedness of decoded JSON trees, the fuel measure of the parser, and
the output invariant of the structural walker. -/

/-- The keys of an object member list. -/
def keysO : JObj → List B
  | .nil => []
  | .cons k _ tl => k :: keysO tl

mutual
/-- The key-shape of a nested structure: which nesting levels exist and
which keys each mapping level has (values and scalar kinds erased). -/
inductive KTree where
  | leaf
  | seq (xs : KTreeList)
  | node (fs : KFieldList)
/-- Shapes of sequence elements. -/
inductive KTreeList where
  | nil
  | cons (hd : KTree) (tl : KTreeList)
/-- Keys and shapes of a mapping level. -/
inductive KFieldList where
  | nil
  | cons (k : B) (v : KTree) (tl : KFieldList)
end

/-- Key-shape of `map[string]string` entries (all leaves). -/
def gshapeS : List (B × B) → KFieldList
  | [] => .nil
  | (k, _) :: tl => .cons k .leaf (gshapeS tl)

mutual
/-- Key-shape of a `GoVal` (both mapping kinds are mapping levels). -/
def gshape : GoVal → KTree
  | .vMapAny m => .node (gshapeF m)
  | .vMapStr m => .node (gshapeS m)
  | _ => .leaf
/-- Key-shape of `map[string]any` entries. -/
def gshapeF : GoFields → KFieldList
  | .nil => .nil
  | .cons k v tl => .cons k (gshape v) (gshapeF tl)
end

mutual
/-- Key-shape of a decoded JSON tree. -/
def jshape : Json → KTree
  | .obj fs => .node (jshapeO fs)
  | .arr xs => .seq (jshapeA xs)
  | _ => .leaf
/-- Key-shapes of object members. -/
def jshapeO : JObj → KFieldList
  | .nil => .nil
  | .cons k v tl => .cons k (jshape v) (jshapeO tl)
/-- Key-shapes of array elements. -/
def jshapeA : JArr → KTreeList
  | .nil => .nil
  | .cons v tl => .cons (jshape v) (jshapeA tl)
end

mutual
/-- The key-shape that `redactJSONNode` produces from a given input: the
input's shape except that the whole subtree under a sensitive key collapses
to a leaf (the mask string). -/
def maskShape : Json → KTree
  | .obj fs => .node (maskShapeO fs)
  | .arr xs => .seq (maskShapeA xs)
  | _ => .leaf
/-- `maskShape` on object members. -/
def maskShapeO : JObj → KFieldList
  | .nil => .nil
  | .cons k v tl =>
    if IsSensitiveKey k then .cons k .leaf (maskShapeO tl)
    else .cons k (maskShape v) (maskShapeO tl)
/-- `maskShape` on array elements. -/
def maskShapeA : JArr → KTreeList
  | .nil => .nil
  | .cons v tl => .cons (maskShape v) (maskShapeA tl)
end

mutual
/-- Output invariant of the structural walker: at every nesting level,
an entry whose key is sensitive and whose value is not itself a mapping
carries exactly the mask. -/
def maskedOKF : GoFields → Bool
  | .nil => true
  | .cons k v tl => maskedOKEntry k v && maskedOKF tl
/-- One entry of `maskedOKF` (mapping values are walked, scalar values
under a sensitive key must be the mask). -/
def maskedOKEntry (k : B) : GoVal → Bool
  | .vMapAny t => maskedOKF t
  | .vMapStr _ => true
  | .vStr s => !IsSensitiveKey k || decide (s = RedactionMask)
  | .vOther _ => !IsSensitiveKey k
end

mutual
/-- Well-formedness of a decoded JSON tree, as guaranteed for every tree
the parser produces: object keys are distinct at every level and every
number lexeme is a complete number token. -/
def wfJ : Json → Bool
  | .num lex => decide (parseNum lex = some (lex, []))
  | .arr xs => wfA xs
  | .obj fs => decide (keysO fs).Nodup && wfO fs
  | _ => true
/-- `wfJ` over array elements. -/
def wfA : JArr → Bool
  | .nil => true
  | .cons v tl => wfJ v && wfA tl
/-- `wfJ` over object member values. -/
def wfO : JObj → Bool
  | .nil => true
  | .cons _ v tl => wfJ v && wfO tl
end

/-- Member list sorted by key under `lexLe`. -/
def sortedO : JObj → Bool
  | .nil => true
  | .cons _ _ .nil => true
  | .cons k _ (.cons k2 v2 tl) => lexLe k k2 && sortedO (.cons k2 v2 tl)

/-- Concatenation of object member lists. -/
def appendObj : JObj → JObj → JObj
  | .nil, g => g
  | .cons k v tl, g => .cons k v (appendObj tl g)

/-- The bytes that may legally follow a complete serialized number in the
serializer's output: end of input, or a byte that cannot extend a number
lexeme (in the output always one of `,`, `]`, brace-close). -/
def numStopB : B → Bool
  | [] => true
  | c :: _ => !isDigit c && c ≠ 46 && c ≠ 101 && c ≠ 69

mutual
/-- No sensitive key at any depth, and every string leaf of at most 16
bytes (the hypothesis of the JSON round-trip property). -/
def plainJ : Json → Bool
  | .str s => decide (s.length ≤ 16)
  | .arr xs => plainA xs
  | .obj fs => plainO fs
  | _ => true
/-- `plainJ` over array elements. -/
def plainA : JArr → Bool
  | .nil => true
  | .cons v tl => plainJ v && plainA tl
/-- `plainJ` over object members (keys must not be sensitive). -/
def plainO : JObj → Bool
  | .nil => true
  | .cons k v tl => !IsSensitiveKey k && plainJ v && plainO tl
end

mutual
/-- Fuel needed by `parseValue` to parse the serialization of a tree. -/
def jfuel : Json → Nat
  | .arr xs => 2 + jfuelA xs
  | .obj fs => 2 + jfuelO fs
  | _ => 1
/-- Fuel needed by `parseElems` for the serialized elements. -/
def jfuelA : JArr → Nat
  | .nil => 0
  | .cons v tl => 1 + max (jfuel v) (jfuelA tl)
/-- Fuel needed by `parseMembers` for the serialized members. -/
def jfuelO : JObj → Nat
  | .nil => 0
  | .cons _ v tl => 1 + max (jfuel v) (jfuelO tl)
end

/-- Association lookup on the `Values` model (Go map indexing,
`url.Values[key]`). -/
def lookupVals (k : B) : Values → Option (List B)
  | [] => none
  | (k0, vs) :: tl => if k0 = k then some vs else lookupVals k tl

/-- The parameter names of a `Values` list. -/
def keysV (q : Values) : List B := q.map Prod.fst

/-- Every byte of the string is an actual byte (below 256). -/
def bytesLt (s : B) : Bool := s.all (fun c => c < 256)

/-- Every parameter name and value consists of actual bytes. -/
def valuesLt (q : Values) : Bool :=
  q.all (fun kv => bytesLt kv.1 && kv.2.all bytesLt)

/-- Every parameter carries exactly one value. -/
def allSingle (q : Values) : Bool := q.all (fun kv => kv.2.length = 1)

/-!
## Helper lemmas
-/

mutual
theorem safeFields_maskedOK : ∀ m, maskedOKF (SafeFields m) = true
  | .nil => rfl
  | .cons k v tl => by
    cases v with
    | vStr s =>
      by_cases h : IsSensitiveKey k = true <;>
        simp [SafeFields, SafeValue, maskedOKF, maskedOKEntry, h,
          safeFields_maskedOK tl]
    | vMapAny t =>
      simp [SafeFields, maskedOKF, maskedOKEntry, safeFields_maskedOK t,
        safeFields_maskedOK tl]
    | vMapStr t =>
      simp [SafeFields, maskedOKF, maskedOKEntry, ofStrMap_maskedOK t,
        safeFields_maskedOK tl]
    | vOther n =>
      by_cases h : IsSensitiveKey k = true <;>
        simp [SafeFields, SafeValue, maskedOKF, maskedOKEntry, h,
          safeFields_maskedOK tl]
theorem ofStrMap_maskedOK : ∀ t, maskedOKF (SafeFields.ofStrMap t) = true
  | [] => rfl
  | (kk, vv) :: rest => by
    by_cases h : IsSensitiveKey kk = true <;>
      simp [SafeFields.ofStrMap, SafeValue, maskedOKF, maskedOKEntry, h,
        ofStrMap_maskedOK rest]
end

mutual
theorem safeFields_gshape : ∀ m, gshapeF (SafeFields m) = gshapeF m
  | .nil => rfl
  | .cons k v tl => by
    cases v with
    | vStr s =>
      by_cases h : IsSensitiveKey k = true <;>
        simp [SafeFields, SafeValue, gshapeF, gshape, h, safeFields_gshape tl]
    | vMapAny t =>
      simp [SafeFields, gshapeF, gshape, safeFields_gshape t, safeFields_gshape tl]
    | vMapStr t =>
      simp [SafeFields, gshapeF, gshape, ofStrMap_gshape t, safeFields_gshape tl]
    | vOther n =>
      by_cases h : IsSensitiveKey k = true <;>
        simp [SafeFields, SafeValue, gshapeF, gshape, h, safeFields_gshape tl]
theorem ofStrMap_gshape : ∀ t, gshapeF (SafeFields.ofStrMap t) = gshapeS t
  | [] => rfl
  | (kk, vv) :: rest => by
    by_cases h : IsSensitiveKey kk = true <;>
      simp [SafeFields.ofStrMap, SafeValue, gshapeF, gshape, gshapeS, h,
        ofStrMap_gshape rest]
end

mutual
theorem redact_jshape : ∀ t, jshape (redactJSONNode t) = maskShape t
  | .null => rfl
  | .bool _ => rfl
  | .num _ => rfl
  | .str _ => rfl
  | .arr xs => by simp [redactJSONNode, jshape, maskShape, redact_jshapeA xs]
  | .obj fs => by simp [redactJSONNode, jshape, maskShape, redact_jshapeO fs]
theorem redact_jshapeO : ∀ fs, jshapeO (redactObj fs) = maskShapeO fs
  | .nil => rfl
  | .cons k v tl => by
    by_cases h : IsSensitiveKey k = true <;>
      simp [redactObj, jshapeO, maskShapeO, jshape, h, redact_jshape v,
        redact_jshapeO tl]
theorem redact_jshapeA : ∀ xs, jshapeA (redactArr xs) = maskShapeA xs
  | .nil => rfl
  | .cons v tl => by
    simp [redactArr, jshapeA, maskShapeA, redact_jshape v, redact_jshapeA tl]
end

/-!
## Claims C1, C3, C4, C7, C2, C8
-/

/-- C1: for every field name the Key Classifier flags sensitive and every
value of any type, the Scalar Redactor returns exactly the mask string,
independently of the value's type and content. -/
theorem C1_scalar_redactor_masks_sensitive (key : B) (v : GoVal)
    (h : IsSensitiveKey key = true) :
    SafeValue key v = .vStr RedactionMask := by
  simp [SafeValue, h]

/-- Witness for C1 at the key `token` and a non-string value. -/
theorem C1_scalar_redactor_masks_sensitive_witness :
    IsSensitiveKey (asciiBytes "token") = true ∧
      SafeValue (asciiBytes "token") (.vOther 7) = .vStr RedactionMask :=
  ⟨by decide, C1_scalar_redactor_masks_sensitive (asciiBytes "token") (.vOther 7) (by decide)⟩

/-- C3 counterexample: at the 18-byte input `abcdefghijklmnopqr` the input
length exceeds 17 and yet the preview (19 bytes: 8 + the 3-byte ellipsis
+ 8) is not strictly shorter than the input. -/
theorem C3_preview_shrink_counterexample :
    (asciiBytes "abcdefghijklmnopqr").length > 17 ∧
      ¬ (TruncatePreview (asciiBytes "abcdefghijklmnopqr")).length
          < (asciiBytes "abcdefghijklmnopqr").length := by decide

/-- C3 amended: strings of byte length at most 16 pass through unchanged;
longer strings become `head(8) ++ ellipsis ++ tail(8)`, whose byte length
is always exactly 19 (the ellipsis is three UTF-8 bytes), so the result is
strictly shorter than the input exactly when the input length is at least
20 — not already when it exceeds 17. -/
theorem C3_preview_window_amended (s : B) :
    (s.length ≤ 16 → TruncatePreview s = s) ∧
    (s.length > 16 →
      TruncatePreview s = s.take 8 ++ ellipsisBytes ++ s.drop (s.length - 8) ∧
      (TruncatePreview s).length = 19) ∧
    (s.length ≥ 20 → (TruncatePreview s).length < s.length) := by
  refine ⟨fun h => by simp [TruncatePreview, maxPreviewLen, h], fun h => ?_, fun h => ?_⟩
  · have h16 : ¬ s.length ≤ 16 := by omega
    refine ⟨by simp [TruncatePreview, maxPreviewLen, h16], ?_⟩
    simp only [TruncatePreview, maxPreviewLen, if_neg h16]
    simp [ellipsisBytes]
    omega
  · have h16 : ¬ s.length ≤ 16 := by omega
    simp only [TruncatePreview, maxPreviewLen, if_neg h16]
    simp [ellipsisBytes]
    omega

/-- C4 counterexample: an entry whose key (`token`) is sensitive and whose
value is a nested mapping is returned by the Structural Walker with its
mapping value intact — it is not masked. -/
theorem C4_walker_counterexample :
    SafeFields (.cons (asciiBytes "token") (.vMapAny .nil) .nil)
        = .cons (asciiBytes "token") (.vMapAny .nil) .nil ∧
      (GoVal.vMapAny .nil) ≠ .vStr RedactionMask :=
  ⟨rfl, fun h => GoVal.noConfusion h⟩

/-- C4 amended: every entry whose value is not itself a mapping passes
through the Scalar Redactor, so a sensitive key with a non-mapping value is
masked at any nesting depth; an entry whose value is a nested mapping is
instead walked recursively under its own inner keys, even when the outer
key is sensitive. -/
theorem C4_walker_masks_sensitive_scalars (m : GoFields) :
    maskedOKF (SafeFields m) = true :=
  safeFields_maskedOK m

/-- C7: a byte buffer that does not decode as JSON is returned unchanged
by the JSON Body Redactor, which is a total function (re-serialization of
a decoded tree cannot fail, so the claim's serialization clause is the
dead fallback branch returning the original input). -/
theorem C7_json_fail_open (b : B) (h : jsonUnmarshal b = none) :
    RedactJSONBytes b = b := by
  simp [RedactJSONBytes, h]

/-- Witness for C7 at a malformed input. -/
theorem C7_json_fail_open_witness :
    jsonUnmarshal (asciiBytes "not json!") = none ∧
      RedactJSONBytes (asciiBytes "not json!") = asciiBytes "not json!" :=
  ⟨rfl, C7_json_fail_open (asciiBytes "not json!") rfl⟩

/-- C2: the Chain Sanitizer is the JSON Body Redactor, then the PEM Block
Redactor, then the case-insensitive keyword scan collapsing to the bare
mask; on the JSON body `{"authorization": "Bearer xyz"}` the output is the
structured JSON redaction (not the bare mask), while the non-JSON plaintext
`Authorization: Bearer abc` collapses to exactly the bare mask. -/
theorem C2_chain_sanitizer :
    (∀ b : B,
      RedactBytesChain b =
        if containsSub (toLower (RedactPEM (RedactJSONBytes b))) (asciiBytes "authorization:")
            || containsSub (toLower (RedactPEM (RedactJSONBytes b))) (asciiBytes "bearer ")
        then RedactionMask else RedactPEM (RedactJSONBytes b)) ∧
    RedactBytesChain (asciiBytes "\x7b\"authorization\": \"Bearer xyz\"\x7d")
        = asciiBytes "\x7b\"authorization\":\"****\"\x7d" ∧
    asciiBytes "\x7b\"authorization\":\"****\"\x7d" ≠ RedactionMask ∧
    RedactBytesChain (asciiBytes "Authorization: Bearer abc") = RedactionMask :=
  ⟨fun _ => rfl, by decide, by decide, by decide⟩

/-- C8 counterexample: on `{"token": {"a": null}}` the JSON-tree walker
replaces the whole mapping under the sensitive key by the mask string, so
the nested level with key set `{a}` does not exist in the output and the
key shapes differ. -/
theorem C8_shape_counterexample :
    redactJSONNode
        (.obj (.cons (asciiBytes "token") (.obj (.cons (asciiBytes "a") .null .nil)) .nil))
      = .obj (.cons (asciiBytes "token") (.str RedactionMask) .nil) ∧
    jshape (redactJSONNode
        (.obj (.cons (asciiBytes "token") (.obj (.cons (asciiBytes "a") .null .nil)) .nil)))
      ≠ jshape (.obj (.cons (asciiBytes "token") (.obj (.cons (asciiBytes "a") .null .nil)) .nil)) := by
  constructor
  · rfl
  · intro h
    rw [show redactJSONNode
        (.obj (.cons (asciiBytes "token") (.obj (.cons (asciiBytes "a") .null .nil)) .nil))
      = .obj (.cons (asciiBytes "token") (.str RedactionMask) .nil) from rfl] at h
    simp only [jshape, jshapeO] at h
    injection h with h1
    injection h1 with _ h2 _
    exact KTree.noConfusion h2

/-- C8 amended: `SafeFields` preserves the key shape (key sets at every
nesting level) exactly; the JSON-tree walker preserves it at every level
except that the entire subtree under a sensitive key is replaced by the
mask leaf (the sensitive key itself is kept, the levels below it are
gone). -/
theorem C8_walker_shape_preservation :
    (∀ m : GoFields, gshapeF (SafeFields m) = gshapeF m) ∧
    (∀ t : Json, jshape (redactJSONNode t) = maskShape t) :=
  ⟨safeFields_gshape, redact_jshape⟩

/-!
## Number lexer lemmas

Inversion, exactness and extension lemmas showing `parseNum` consumes
exactly a number lexeme and is insensitive to what follows it, provided the
follower cannot extend the lexeme (`numStopB`). -/

/-- No leading digit. -/
def headND (y : B) : Prop := ∀ c, y.head? = some c → isDigit c = false

theorem headND_nil : headND [] := fun c h => by simp at h

theorem headND_append {y z : B} (hy : headND y) (hz : y = [] → headND z) :
    headND (y ++ z) := by
  cases y with
  | nil => simpa using hz rfl
  | cons c r => intro d hd; simp at hd; exact hd ▸ hy c (by simp)

theorem takeDigits_split : ∀ b : B, b = (takeDigits b).1 ++ (takeDigits b).2
  | [] => rfl
  | c :: rest => by
    by_cases h : isDigit c = true <;>
      simp [takeDigits, h] <;> exact takeDigits_split rest

theorem takeDigits_all : ∀ b : B, ∀ d ∈ (takeDigits b).1, isDigit d = true
  | [] => by simp [takeDigits]
  | c :: rest => by
    by_cases h : isDigit c = true
    · simp only [takeDigits, h, if_pos]
      intro d hd
      simp only [List.mem_cons] at hd
      rcases hd with rfl | hd
      · exact h
      · exact takeDigits_all rest d hd
    · simp [takeDigits, h]

theorem takeDigits_stop : ∀ b : B, headND (takeDigits b).2
  | [] => headND_nil
  | c :: rest => by
    by_cases h : isDigit c = true <;> simp [takeDigits, h]
    · exact takeDigits_stop rest
    · intro d hd; simp at hd; exact hd ▸ (by simpa using h)

theorem takeDigits_exact : ∀ ds rest : B, (∀ d ∈ ds, isDigit d = true) → headND rest →
    takeDigits (ds ++ rest) = (ds, rest)
  | [], rest, _, hr => by
    cases rest with
    | nil => rfl
    | cons c r => simp [takeDigits, hr c (by simp)]
  | d :: ds, rest, hall, hr => by
    have hd : isDigit d = true := hall d (by simp)
    simp [takeDigits, hd, takeDigits_exact ds rest (fun x hx => hall x (by simp [hx])) hr]

/-- The shapes `intPart` can consume. -/
def IntShape (i y : B) : Prop :=
  i = [48] ∨
    ∃ c ds, i = c :: ds ∧ isDigit c = true ∧ c ≠ 48 ∧
      (∀ d ∈ ds, isDigit d = true) ∧ headND y

theorem intPart_inv {x i y : B} (h : intPart x = some (i, y)) :
    x = i ++ y ∧ IntShape i y := by
  cases x with
  | nil => simp [intPart] at h
  | cons c rest =>
    by_cases h48 : c = 48
    · subst h48
      simp [intPart] at h
      obtain ⟨rfl, rfl⟩ := h
      exact ⟨rfl, Or.inl rfl⟩
    · by_cases hd : isDigit c = true
      · simp [intPart, h48, hd] at h
        obtain ⟨rfl, rfl⟩ := h
        refine ⟨by simpa using congrArg (c :: ·) (takeDigits_split rest), Or.inr ?_⟩
        exact ⟨c, (takeDigits rest).1, rfl, hd, h48, takeDigits_all rest, takeDigits_stop rest⟩
      · simp [intPart, h48, hd] at h

theorem intPart_exact {i y : B} (h : IntShape i y) : intPart (i ++ y) = some (i, y) := by
  rcases h with rfl | ⟨c, ds, rfl, hd, h48, hall, hy⟩
  · simp [intPart]
  · simp [intPart, h48, hd, takeDigits_exact ds y hall hy]

theorem IntShape_append {i y z : B} (h : IntShape i y) (hz : y = [] → headND z) :
    IntShape i (y ++ z) := by
  rcases h with rfl | ⟨c, ds, rfl, hd, h48, hall, hy⟩
  · exact Or.inl rfl
  · exact Or.inr ⟨c, ds, rfl, hd, h48, hall, headND_append hy hz⟩

/-- The shapes `numInt` can consume. -/
def NumIntShape (i y : B) : Prop :=
  (∃ i2, i = 45 :: i2 ∧ IntShape i2 y) ∨ IntShape i y

theorem numInt_inv {x i y : B} (h : numInt x = some (i, y)) :
    x = i ++ y ∧ NumIntShape i y := by
  cases x with
  | nil => simp [numInt] at h
  | cons c rest =>
    by_cases h45 : c = 45
    · subst h45
      simp [numInt] at h
      obtain ⟨p, hp, hpi⟩ := h
      obtain ⟨hx, hs⟩ := intPart_inv hp
      refine ⟨?_, Or.inl ⟨p, hpi.symm, hs⟩⟩
      rw [← hpi, hx]
      simp
    · rw [show numInt (c :: rest) = intPart (c :: rest) by simp [numInt, h45]] at h
      obtain ⟨hx, hs⟩ := intPart_inv h
      exact ⟨hx, Or.inr hs⟩

theorem numInt_exact {i y : B} (h : NumIntShape i y) : numInt (i ++ y) = some (i, y) := by
  rcases h with ⟨i2, rfl, hs⟩ | hs
  · simp [numInt, intPart_exact hs]
  · rcases hs with rfl | ⟨c, ds, rfl, hd, h48, hall, hy⟩
    · simpa [numInt] using intPart_exact (Or.inl rfl)
    · have h45 : c ≠ 45 := by intro h; subst h; simp [isDigit] at hd
      simpa [numInt, h45] using intPart_exact (Or.inr ⟨c, ds, rfl, hd, h48, hall, hy⟩)

theorem NumIntShape_append {i y z : B} (h : NumIntShape i y) (hz : y = [] → headND z) :
    NumIntShape i (y ++ z) := by
  rcases h with ⟨i2, rfl, hs⟩ | hs
  · exact Or.inl ⟨i2, rfl, IntShape_append hs hz⟩
  · exact Or.inr (IntShape_append hs hz)

/-- The shapes `numFrac` can consume. -/
def FracShape (fr y : B) : Prop :=
  (fr = [] ∧ (y = [] ∨ y.head? ≠ some 46)) ∨
    ∃ d ds, fr = 46 :: d :: ds ∧ isDigit d = true ∧
      (∀ x ∈ ds, isDigit x = true) ∧ headND y

theorem numFrac_inv {m fr y : B} (h : numFrac m = some (fr, y)) :
    m = fr ++ y ∧ FracShape fr y := by
  cases m with
  | nil =>
    simp [numFrac] at h
    obtain ⟨rfl, rfl⟩ := h
    exact ⟨rfl, Or.inl ⟨rfl, Or.inl rfl⟩⟩
  | cons c rest =>
    by_cases h46 : c = 46
    · subst h46
      cases rest with
      | nil => simp [numFrac] at h
      | cons d rest2 =>
        by_cases hd : isDigit d = true
        · simp [numFrac, hd] at h
          obtain ⟨rfl, rfl⟩ := h
          refine ⟨by simpa using congrArg (fun l => 46 :: d :: l) (takeDigits_split rest2), ?_⟩
          exact Or.inr ⟨d, (takeDigits rest2).1, rfl, hd, takeDigits_all rest2,
            takeDigits_stop rest2⟩
        · simp [numFrac, hd] at h
    · simp [numFrac, h46] at h
      obtain ⟨rfl, rfl⟩ := h
      exact ⟨rfl, Or.inl ⟨rfl, Or.inr (by simp [h46])⟩⟩

theorem numFrac_exact {fr y : B} (h : FracShape fr y) : numFrac (fr ++ y) = some (fr, y) := by
  rcases h with ⟨rfl, hy⟩ | ⟨d, ds, rfl, hd, hall, hy⟩
  · rcases hy with rfl | hy
    · rfl
    · cases y with
      | nil => rfl
      | cons c r =>
        have hc : c ≠ 46 := by intro h; exact hy (by simp [h])
        simp [numFrac, hc]
  · simp [numFrac, hd, takeDigits_exact ds y hall hy]

theorem FracShape_append {fr y z : B} (h : FracShape fr y)
    (hz : y = [] → headND z ∧ z.head? ≠ some 46) : FracShape fr (y ++ z) := by
  rcases h with ⟨rfl, hy⟩ | ⟨d, ds, rfl, hd, hall, hy⟩
  · refine Or.inl ⟨rfl, ?_⟩
    cases y with
    | nil => simpa using Or.inr (hz rfl).2
    | cons c r =>
      rcases hy with h | h
      · simp at h
      · exact Or.inr (by simpa using h)
  · exact Or.inr ⟨d, ds, rfl, hd, hall, headND_append hy (fun h => (hz h).1)⟩

/-- The shapes `expDigits` can consume. -/
def EDShape (ed y : B) : Prop :=
  (∃ s d0 ds, ed = s :: d0 :: ds ∧ (s = 43 ∨ s = 45) ∧ isDigit d0 = true ∧
      (∀ x ∈ ds, isDigit x = true) ∧ headND y) ∨
    ∃ d0 ds, ed = d0 :: ds ∧ isDigit d0 = true ∧
      (∀ x ∈ ds, isDigit x = true) ∧ headND y

theorem expDigits_inv {r ed y : B} (h : expDigits r = some (ed, y)) :
    r = ed ++ y ∧ EDShape ed y := by
  cases r with
  | nil => simp [expDigits] at h
  | cons s rest =>
    by_cases hs : s = 43 ∨ s = 45
    · cases rest with
      | nil => simp [expDigits, hs] at h
      | cons d rest2 =>
        by_cases hd : isDigit d = true
        · simp [expDigits, hs, hd] at h
          obtain ⟨rfl, rfl⟩ := h
          refine ⟨by simpa using congrArg (fun l => s :: d :: l) (takeDigits_split rest2), ?_⟩
          exact Or.inl ⟨s, d, (takeDigits rest2).1, rfl, hs, hd, takeDigits_all rest2,
            takeDigits_stop rest2⟩
        · simp [expDigits, hs, hd] at h
    · by_cases hd : isDigit s = true
      · simp [expDigits, hs, hd] at h
        obtain ⟨rfl, rfl⟩ := h
        refine ⟨by simpa using congrArg (s :: ·) (takeDigits_split rest), ?_⟩
        exact Or.inr ⟨s, (takeDigits rest).1, rfl, hd, takeDigits_all rest,
          takeDigits_stop rest⟩
      · simp [expDigits, hs, hd] at h

theorem expDigits_exact {ed y : B} (h : EDShape ed y) : expDigits (ed ++ y) = some (ed, y) := by
  rcases h with ⟨s, d0, ds, rfl, hs, hd, hall, hy⟩ | ⟨d0, ds, rfl, hd, hall, hy⟩
  · simp [expDigits, hs, hd, takeDigits_exact ds y hall hy]
  · have hs : ¬ (d0 = 43 ∨ d0 = 45) := by
      rintro (rfl | rfl) <;> simp [isDigit] at hd
    simp [expDigits, hs, hd, takeDigits_exact ds y hall hy]

theorem EDShape_append {ed y z : B} (h : EDShape ed y) (hz : y = [] → headND z) :
    EDShape ed (y ++ z) := by
  rcases h with ⟨s, d0, ds, rfl, hs, hd, hall, hy⟩ | ⟨d0, ds, rfl, hd, hall, hy⟩
  · exact Or.inl ⟨s, d0, ds, rfl, hs, hd, hall, headND_append hy hz⟩
  · exact Or.inr ⟨d0, ds, rfl, hd, hall, headND_append hy hz⟩

/-- The shapes `numExp` can consume. -/
def ExpShape (ex y : B) : Prop :=
  (ex = [] ∧ (y = [] ∨ (y.head? ≠ some 101 ∧ y.head? ≠ some 69))) ∨
    ∃ e ed, ex = e :: ed ∧ (e = 101 ∨ e = 69) ∧ EDShape ed y

theorem numExp_inv {m ex y : B} (h : numExp m = some (ex, y)) :
    m = ex ++ y ∧ ExpShape ex y := by
  cases m with
  | nil =>
    simp [numExp] at h
    obtain ⟨rfl, rfl⟩ := h
    exact ⟨rfl, Or.inl ⟨rfl, Or.inl rfl⟩⟩
  | cons c rest =>
    by_cases he : c = 101 ∨ c = 69
    · simp [numExp, he] at h
      obtain ⟨p, hp, hpe⟩ := h
      obtain ⟨hr, hs⟩ := expDigits_inv hp
      refine ⟨?_, Or.inr ⟨c, p, hpe.symm, he, hs⟩⟩
      rw [← hpe, hr]
      simp
    · simp [numExp, he] at h
      obtain ⟨rfl, rfl⟩ := h
      refine ⟨rfl, Or.inl ⟨rfl, Or.inr ⟨?_, ?_⟩⟩⟩ <;>
        · simp only [List.head?_cons, ne_eq, Option.some.injEq]
          intro hc
          exact he (by omega)

theorem numExp_exact {ex y : B} (h : ExpShape ex y) : numExp (ex ++ y) = some (ex, y) := by
  rcases h with ⟨rfl, hy⟩ | ⟨e, ed, rfl, he, hs⟩
  · rcases hy with rfl | ⟨h1, h2⟩
    · rfl
    · cases y with
      | nil => rfl
      | cons c r =>
        have hc : ¬ (c = 101 ∨ c = 69) := by
          rintro (rfl | rfl) <;> simp at h1 h2
        simp [numExp, hc]
  · simp [numExp, he, expDigits_exact hs]

theorem ExpShape_append {ex y z : B} (h : ExpShape ex y)
    (hz : y = [] → headND z ∧ z.head? ≠ some 101 ∧ z.head? ≠ some 69) :
    ExpShape ex (y ++ z) := by
  rcases h with ⟨rfl, hy⟩ | ⟨e, ed, rfl, he, hs⟩
  · refine Or.inl ⟨rfl, ?_⟩
    cases y with
    | nil => simpa using Or.inr ⟨(hz rfl).2.1, (hz rfl).2.2⟩
    | cons c r =>
      rcases hy with h | h
      · simp at h
      · exact Or.inr (by simpa using h)
  · exact Or.inr ⟨e, ed, rfl, he, EDShape_append hs (fun h => (hz h).1)⟩

/-- What a successful `parseNum` run looks like. -/
theorem parseNum_inv {x l r : B} (h : parseNum x = some (l, r)) :
    ∃ i fr ex, l = i ++ (fr ++ ex) ∧ x = l ++ r ∧
      NumIntShape i (fr ++ (ex ++ r)) ∧ FracShape fr (ex ++ r) ∧ ExpShape ex r := by
  unfold parseNum at h
  cases hni : numInt x with
  | none => simp [hni] at h
  | some p =>
    obtain ⟨i, m1⟩ := p
    simp only [hni] at h
    cases hnf : numFrac m1 with
    | none => simp [hnf] at h
    | some q =>
      obtain ⟨fr, m2⟩ := q
      simp only [hnf] at h
      cases hne : numExp m2 with
      | none => simp [hne] at h
      | some w =>
        obtain ⟨ex, r2⟩ := w
        simp only [hne] at h
        simp at h
        obtain ⟨hl, hr⟩ := h
        subst hr
        obtain ⟨hx1, hs1⟩ := numInt_inv hni
        obtain ⟨hx2, hs2⟩ := numFrac_inv hnf
        obtain ⟨hx3, hs3⟩ := numExp_inv hne
        subst hx2
        subst hx3
        refine ⟨i, fr, ex, hl.symm, ?_, by simpa using hs1, hs2, hs3⟩
        rw [hx1, ← hl]
        simp

/-- Reassemble a `parseNum` run from its component shapes. -/
theorem parseNum_of_shapes {i fr ex r : B}
    (h1 : NumIntShape i (fr ++ (ex ++ r))) (h2 : FracShape fr (ex ++ r))
    (h3 : ExpShape ex r) :
    parseNum ((i ++ (fr ++ ex)) ++ r) = some (i ++ (fr ++ ex), r) := by
  have e1 : (i ++ (fr ++ ex)) ++ r = i ++ (fr ++ (ex ++ r)) := by simp
  unfold parseNum
  rw [e1]
  simp only [numInt_exact h1, numFrac_exact h2, numExp_exact h3]

/-- A lexeme `parseNum` consumed is itself a complete number token. -/
theorem parseNum_self {x l r : B} (h : parseNum x = some (l, r)) :
    parseNum l = some (l, []) := by
  obtain ⟨i, fr, ex, rfl, _, hs1, hs2, hs3⟩ := parseNum_inv h
  have hfr : headND (fr ++ (ex ++ ([] : B))) → True := fun _ => trivial
  have hs3e : ExpShape ex [] := by
    rcases hs3 with ⟨rfl, _⟩ | ⟨e, ed, rfl, he, hs⟩
    · exact Or.inl ⟨rfl, Or.inl rfl⟩
    · refine Or.inr ⟨e, ed, rfl, he, ?_⟩
      rcases hs with ⟨s, d0, ds, rfl, a, b, c, _⟩ | ⟨d0, ds, rfl, a, b, _⟩
      · exact Or.inl ⟨s, d0, ds, rfl, a, b, c, headND_nil⟩
      · exact Or.inr ⟨d0, ds, rfl, a, b, headND_nil⟩
  have hex_head : ∀ c, (ex ++ ([] : B)).head? = some c → isDigit c = false ∧ c ≠ 46 := by
    intro c hc
    rcases hs3 with ⟨rfl, _⟩ | ⟨e, ed, rfl, he, _⟩
    · simp at hc
    · simp at hc
      rcases he with rfl | rfl <;> simp [← hc, isDigit] <;> omega
  have hs2e : FracShape fr (ex ++ []) := by
    rcases hs2 with ⟨rfl, _⟩ | ⟨d, ds, rfl, a, b, _⟩
    · refine Or.inl ⟨rfl, ?_⟩
      cases hex : (ex ++ ([] : B)) with
      | nil => exact Or.inl (by simpa using hex)
      | cons c r0 =>
        refine Or.inr ?_
        have := (hex_head c (by simp [hex])).2
        simp [hex, this]
    · refine Or.inr ⟨d, ds, rfl, a, b, ?_⟩
      intro c hc
      exact (hex_head c hc).1
  have hfrex_head : ∀ c, (fr ++ (ex ++ ([] : B))).head? = some c → isDigit c = false := by
    intro c hc
    rcases hs2 with ⟨rfl, _⟩ | ⟨d, ds, rfl, _, _, _⟩
    · simp at hc
      exact (hex_head c (by simpa using hc)).1
    · simp at hc
      simp [← hc, isDigit]
  have hs1e : NumIntShape i (fr ++ (ex ++ ([] : B))) := by
    rcases hs1 with ⟨i2, rfl, his⟩ | his
    · refine Or.inl ⟨i2, rfl, ?_⟩
      rcases his with rfl | ⟨c, ds, rfl, a, b, c2, _⟩
      · exact Or.inl rfl
      · exact Or.inr ⟨c, ds, rfl, a, b, c2, hfrex_head⟩
    · refine Or.inr ?_
      rcases his with rfl | ⟨c, ds, rfl, a, b, c2, _⟩
      · exact Or.inl rfl
      · exact Or.inr ⟨c, ds, rfl, a, b, c2, hfrex_head⟩
  simpa using parseNum_of_shapes hs1e hs2e hs3e

/-- A complete number token parses the same with any non-extending
continuation appended. -/
theorem parseNum_append {l rest : B} (h : parseNum l = some (l, []))
    (hr : numStopB rest = true) : parseNum (l ++ rest) = some (l, rest) := by
  obtain ⟨i, fr, ex, hl, _, hs1, hs2, hs3⟩ := parseNum_inv h
  have hrest_nd : headND rest := by
    intro c hc
    cases rest with
    | nil => simp at hc
    | cons c0 r0 =>
      simp at hc
      subst hc
      simp [numStopB] at hr
      exact hr.1.1.1
  have hrest_ne : rest.head? ≠ some 46 ∧ rest.head? ≠ some 101 ∧ rest.head? ≠ some 69 := by
    cases rest with
    | nil => simp
    | cons c0 r0 =>
      simp [numStopB] at hr
      obtain ⟨⟨⟨h1, h2⟩, h3⟩, h4⟩ := hr
      exact ⟨by simpa using h2, by simpa using h3, by simpa using h4⟩
  have hl0 : l = i ++ (fr ++ ex) := hl
  have hs3' : ExpShape ex ([] ++ rest) := by
    refine ExpShape_append (by simpa using hs3) ?_
    intro _
    exact ⟨hrest_nd, hrest_ne.2.1, hrest_ne.2.2⟩
  have hs2' : FracShape fr (ex ++ rest) := by
    have := FracShape_append (z := rest) (by simpa using hs2) ?_
    · simpa using this
    · intro hy
      have hex : ex = [] := by
        cases ex with
        | nil => rfl
        | cons a b => simp at hy
      subst hex
      exact ⟨hrest_nd, hrest_ne.1⟩
  have hs1' : NumIntShape i (fr ++ (ex ++ rest)) := by
    have := NumIntShape_append (z := rest) (by simpa using hs1) ?_
    · simpa using this
    · intro hy
      have : fr = [] ∧ ex = [] := by
        constructor <;> [cases fr; cases ex] <;> first | rfl | (simp at hy)
      exact hrest_nd
  rw [hl0]
  exact parseNum_of_shapes hs1' hs2' hs3'

/-!
## String escaping round trip
-/

theorem hexVal_hexDigitLower {n : Nat} (h : n < 16) : hexVal (hexDigitLower n) = some n := by
  interval_cases n <;> rfl

theorem psf_close (f : Nat) (rest : B) : parseStrF (f + 1) (34 :: rest) = some ([], rest) := by
  simp [parseStrF]

theorem psf_plain {c : Nat} (f : Nat) (rest : B) (h32 : 32 ≤ c) (h34 : c ≠ 34)
    (h92 : c ≠ 92) :
    parseStrF (f + 1) (c :: rest) = (parseStrF f rest).map (fun p => (c :: p.1, p.2)) := by
  have hn : ¬ c < 32 := by omega
  simp [parseStrF, h34, h92, hn]

theorem psf_esc {e d : Nat} (f : Nat) (rest : B) (he : e ≠ 117) (hd : escDecode e = some d) :
    parseStrF (f + 1) (92 :: e :: rest)
      = (parseStrF f rest).map (fun p => (d :: p.1, p.2)) := by
  simp [parseStrF, he, hd]

theorem psf_u {r1 rest2 : B} {cp : Nat} (f : Nat) (hh : hex4 r1 = some (cp, rest2))
    (hcp : cp < 0xD800) :
    parseStrF (f + 1) (92 :: 117 :: r1)
      = (parseStrF f rest2).map (fun p => (utf8Encode cp ++ p.1, p.2)) := by
  have hn : ¬ (0xD800 ≤ cp ∧ cp ≤ 0xDFFF) := by omega
  simp [parseStrF, hh, hn]

theorem psf_escByte (f : Nat) (c : Nat) (X : B) :
    parseStrF (f + 1) (escByte c ++ X) = (parseStrF f X).map (fun p => (c :: p.1, p.2)) := by
  by_cases h34 : c = 34
  · subst h34
    exact psf_esc f X (by decide) (by decide)
  by_cases h92 : c = 92
  · subst h92
    exact psf_esc f X (by decide) (by decide)
  by_cases h10 : c = 10
  · subst h10
    exact psf_esc f X (by decide) (by decide)
  by_cases h13 : c = 13
  · subst h13
    exact psf_esc f X (by decide) (by decide)
  by_cases h9 : c = 9
  · subst h9
    exact psf_esc f X (by decide) (by decide)
  by_cases hlt : c < 32
  · have hdiv : c / 16 < 16 := by omega
    have hmod : c % 16 < 16 := by omega
    have hb : escByte c = [92, 117, 48, 48, hexDigitLower (c / 16), hexDigitLower (c % 16)] := by
      simp [escByte, h34, h92, h10, h13, h9, hlt]
    have hh : hex4 (48 :: 48 :: hexDigitLower (c / 16) :: hexDigitLower (c % 16) :: X)
        = some (c, X) := by
      have e1 : hexVal 48 = some 0 := by decide
      have e2 := hexVal_hexDigitLower hdiv
      have e3 := hexVal_hexDigitLower hmod
      simp [hex4, e1, e2, e3]
      omega
    have henc : utf8Encode c = [c] := by
      simp [utf8Encode, show c < 0x80 by omega]
    rw [hb]
    rw [show ([92, 117, 48, 48, hexDigitLower (c / 16), hexDigitLower (c % 16)] : B) ++ X
        = 92 :: 117 :: (48 :: 48 :: hexDigitLower (c / 16) :: hexDigitLower (c % 16) :: X)
      from rfl]
    rw [psf_u f hh (by omega), henc]
    rfl
  by_cases h60 : c = 60
  · subst h60
    have hh : hex4 (48 :: 48 :: 51 :: 99 :: X) = some (60, X) := by
      simp [hex4, hexVal]
    have hb : escByte 60 ++ X = 92 :: 117 :: (48 :: 48 :: 51 :: 99 :: X) := by
      simp [escByte, asciiBytes]
    rw [hb, psf_u f hh (by omega)]
    rfl
  by_cases h62 : c = 62
  · subst h62
    have hh : hex4 (48 :: 48 :: 51 :: 101 :: X) = some (62, X) := by
      simp [hex4, hexVal]
    have hb : escByte 62 ++ X = 92 :: 117 :: (48 :: 48 :: 51 :: 101 :: X) := by
      simp [escByte, asciiBytes]
    rw [hb, psf_u f hh (by omega)]
    rfl
  by_cases h38 : c = 38
  · subst h38
    have hh : hex4 (48 :: 48 :: 50 :: 54 :: X) = some (38, X) := by
      simp [hex4, hexVal]
    have hb : escByte 38 ++ X = 92 :: 117 :: (48 :: 48 :: 50 :: 54 :: X) := by
      simp [escByte, asciiBytes]
    rw [hb, psf_u f hh (by omega)]
    rfl
  · have hb : escByte c = [c] := by
      simp [escByte, h34, h92, h10, h13, h9, hlt, h60, h62, h38]
    rw [hb]
    exact psf_plain f X (by omega) h34 h92

theorem parseStr_escape : ∀ (s : B) (f : Nat) (rest : B), s.length < f →
    parseStrF f (escapeJSON s ++ 34 :: rest) = some (s, rest)
  | [], f, rest, h => by
    obtain ⟨f2, rfl⟩ : ∃ f2, f = f2 + 1 := ⟨f - 1, by omega⟩
    simpa [escapeJSON] using psf_close f2 rest
  | [c], f, rest, h => by
    obtain ⟨f2, rfl⟩ : ∃ f2, f = f2 + 2 := ⟨f - 2, by simp at h; omega⟩
    rw [show escapeJSON [c] ++ 34 :: rest = escByte c ++ (34 :: rest) from rfl,
      show f2 + 2 = (f2 + 1) + 1 from rfl, psf_escByte (f2 + 1) c (34 :: rest),
      psf_close]
    rfl
  | [c, d], f, rest, h => by
    obtain ⟨f2, rfl⟩ : ∃ f2, f = f2 + 3 := ⟨f - 3, by simp at h; omega⟩
    rw [show escapeJSON [c, d] ++ 34 :: rest
        = escByte c ++ (escByte d ++ (34 :: rest)) by simp [escapeJSON],
      show f2 + 3 = (f2 + 2) + 1 from rfl,
      psf_escByte (f2 + 2) c (escByte d ++ (34 :: rest)),
      show f2 + 2 = (f2 + 1) + 1 from rfl,
      psf_escByte (f2 + 1) d (34 :: rest), psf_close]
    rfl
  | c :: d :: e :: s2, f, rest, h => by
    obtain ⟨f2, rfl⟩ : ∃ f2, f = f2 + 1 := ⟨f - 1, by simp at h; omega⟩
    by_cases h28 : c = 0xE2 ∧ d = 0x80 ∧ e = 0xA8
    · obtain ⟨rfl, rfl, rfl⟩ := h28
      have he : escapeJSON (226 :: 128 :: 168 :: s2) ++ 34 :: rest
          = 92 :: 117 :: (50 :: 48 :: 50 :: 56 :: (escapeJSON s2 ++ 34 :: rest)) := by
        simp [escapeJSON, asciiBytes]
      have hh : hex4 (50 :: 48 :: 50 :: 56 :: (escapeJSON s2 ++ 34 :: rest))
          = some (0x2028, escapeJSON s2 ++ 34 :: rest) := by
        simp [hex4, hexVal]
      rw [he, psf_u f2 hh (by omega),
        parseStr_escape s2 f2 rest (by simp at h; omega)]
      rfl
    · by_cases h29 : c = 0xE2 ∧ d = 0x80 ∧ e = 0xA9
      · obtain ⟨rfl, rfl, rfl⟩ := h29
        have he : escapeJSON (226 :: 128 :: 169 :: s2) ++ 34 :: rest
            = 92 :: 117 :: (50 :: 48 :: 50 :: 57 :: (escapeJSON s2 ++ 34 :: rest)) := by
          have hne : ¬ ((226 : Nat) = 0xE2 ∧ (128 : Nat) = 0x80 ∧ (169 : Nat) = 0xA8) := by
            decide
          simp [escapeJSON, asciiBytes, hne]
        have hh : hex4 (50 :: 48 :: 50 :: 57 :: (escapeJSON s2 ++ 34 :: rest))
            = some (0x2029, escapeJSON s2 ++ 34 :: rest) := by
          simp [hex4, hexVal]
        rw [he, psf_u f2 hh (by omega),
          parseStr_escape s2 f2 rest (by simp at h; omega)]
        rfl
      · have he : escapeJSON (c :: d :: e :: s2) ++ 34 :: rest
            = escByte c ++ (escapeJSON (d :: e :: s2) ++ 34 :: rest) := by
          simp only [escapeJSON, if_neg h28, if_neg h29]
          simp
        rw [he, psf_escByte f2 c (escapeJSON (d :: e :: s2) ++ 34 :: rest),
          parseStr_escape (d :: e :: s2) f2 rest (by simp at h ⊢; omega)]
        rfl

/-!
## Parser round trip on serializer output
-/

theorem skipWs_cons (c : Nat) (x : B) (h : wsByte c = false) : skipWs (c :: x) = c :: x := by
  simp [skipWs, h]

theorem escByte_len (c : Nat) : 1 ≤ (escByte c).length := by
  unfold escByte
  split_ifs <;> simp

theorem escapeJSON_len_ge : ∀ s : B, s.length ≤ (escapeJSON s).length
  | [] => by simp [escapeJSON]
  | [c] => by
    have := escByte_len c
    simp only [escapeJSON]
    simpa using this
  | [c, d] => by
    have h1 := escByte_len c
    have h2 := escByte_len d
    simp only [escapeJSON, List.length_append]
    simp
    omega
  | c :: d :: e :: s2 => by
    have h1 := escByte_len c
    have ih1 := escapeJSON_len_ge s2
    have ih2 := escapeJSON_len_ge (d :: e :: s2)
    by_cases h28 : c = 0xE2 ∧ d = 0x80 ∧ e = 0xA8
    · simp only [escapeJSON, if_pos h28, List.length_append, List.length_cons]
      simp at ih1 ⊢
      omega
    · by_cases h29 : c = 0xE2 ∧ d = 0x80 ∧ e = 0xA9
      · simp only [escapeJSON, if_neg h28, if_pos h29, List.length_append, List.length_cons]
        simp at ih1 ⊢
        omega
      · simp only [escapeJSON, if_neg h28, if_neg h29, List.length_append, List.length_cons]
        simp at ih2 ⊢
        omega

theorem parseStr_escape_top (s rest : B) :
    parseStr (escapeJSON s ++ 34 :: rest) = some (s, rest) := by
  apply parseStr_escape
  have h := escapeJSON_len_ge s
  simp only [List.length_append, List.length_cons]
  omega

theorem appendObj_nil (g : JObj) : appendObj .nil g = g := rfl

theorem appendObj_assoc : ∀ a b c : JObj,
    appendObj (appendObj a b) c = appendObj a (appendObj b c)
  | .nil, _, _ => rfl
  | .cons k v tl, b, c => by simp [appendObj, appendObj_assoc tl b c]

theorem keysO_appendObj : ∀ a b : JObj, keysO (appendObj a b) = keysO a ++ keysO b
  | .nil, _ => rfl
  | .cons k v tl, b => by simp [appendObj, keysO, keysO_appendObj tl b]

theorem objSet_fresh {k : B} (v : Json) :
    ∀ acc : JObj, k ∉ keysO acc → objSet acc k v = appendObj acc (.cons k v .nil)
  | .nil, _ => rfl
  | .cons k0 v0 tl, h => by
    have hk : ¬ k0 = k := by
      intro hk
      exact h (by simp [keysO, hk])
    have ih := objSet_fresh v tl (fun hmem => h (by simp [keysO]; exact Or.inr hmem))
    simp [objSet, appendObj, hk, ih]

theorem serJson_head {t : Json} (hw : wfJ t = true) :
    ∃ c x, serJson t = c :: x ∧ wsByte c = false ∧ c ≠ 93 ∧ c ≠ 125 := by
  cases t with
  | null => exact ⟨110, _, rfl, by decide, by decide, by decide⟩
  | bool b => cases b with
    | true => exact ⟨116, _, rfl, by decide, by decide, by decide⟩
    | false => exact ⟨102, _, rfl, by decide, by decide, by decide⟩
  | str s => exact ⟨34, _, rfl, by decide, by decide, by decide⟩
  | arr xs => exact ⟨91, _, rfl, by decide, by decide, by decide⟩
  | obj fs => exact ⟨123, _, rfl, by decide, by decide, by decide⟩
  | num lex =>
    have hp : parseNum lex = some (lex, []) := by
      have h2 := hw
      simp [wfJ] at h2
      exact h2
    obtain ⟨i, fr, ex, hl, _, hs1, _, _⟩ := parseNum_inv hp
    have hhead : ∃ c irest, lex = c :: irest ∧ (c = 45 ∨ isDigit c = true) := by
      rcases hs1 with ⟨i2, hi, _⟩ | his
      · refine ⟨45, i2 ++ (fr ++ ex), ?_, Or.inl rfl⟩
        rw [hl, hi]; simp
      · rcases his with hi | ⟨c, ds, hi, hd, _, _, _⟩
        · exact ⟨48, fr ++ ex, by rw [hl, hi]; simp, Or.inr (by decide)⟩
        · exact ⟨c, ds ++ (fr ++ ex), by rw [hl, hi]; simp, Or.inr hd⟩
    obtain ⟨c, irest, hlex, hcd⟩ := hhead
    refine ⟨c, irest, by simp [serJson, hlex], ?_, ?_, ?_⟩
    · rcases hcd with rfl | hd
      · decide
      · simp [isDigit] at hd
        simp [wsByte]
        omega
    · rcases hcd with rfl | hd
      · decide
      · simp [isDigit] at hd
        omega
    · rcases hcd with rfl | hd
      · decide
      · simp [isDigit] at hd
        omega

/-- Facts about the head byte of a serialized number used to steer the
`parseValue` dispatch. -/
theorem num_head_facts {c : Nat} (h : c = 45 ∨ isDigit c = true) :
    ¬ c = 123 ∧ ¬ c = 91 ∧ ¬ c = 34 ∧ ¬ c = 116 ∧ ¬ c = 102 ∧ ¬ c = 110
      ∧ wsByte c = false := by
  rcases h with rfl | hd
  · exact ⟨by decide, by decide, by decide, by decide, by decide, by decide, by decide⟩
  · simp [isDigit] at hd
    refine ⟨?_, ?_, ?_, ?_, ?_, ?_, ?_⟩ <;> first
      | (intro hc; omega)
      | (simp [wsByte]; omega)

theorem parseArrBody_cons {f : Nat} {b : B} {cv : Nat} {y : B}
    (h : skipWs b = cv :: y) (h93 : cv ≠ 93) :
    parseArrBody (f + 1) b = parseElems f b := by
  rw [show f + 1 = Nat.succ f from rfl]
  simp only [parseArrBody, h]
  split
  · next heq =>
    rw [List.cons.injEq] at heq
    exact absurd heq.1 h93
  · rfl

theorem parseObjBody_cons {f : Nat} {b : B} {cv : Nat} {y : B}
    (h : skipWs b = cv :: y) (h125 : cv ≠ 125) :
    parseObjBody (f + 1) b = parseMembers f (cv :: y) .nil := by
  rw [show f + 1 = Nat.succ f from rfl]
  simp only [parseObjBody, h]
  split
  · next heq =>
    rw [List.cons.injEq] at heq
    exact absurd heq.1 h125
  · rfl

theorem numStopB_close (c : Nat) (x : B) (h1 : isDigit c = false) (h2 : ¬ c = 46)
    (h3 : ¬ c = 101) (h4 : ¬ c = 69) : numStopB (c :: x) = true := by
  simp [numStopB, h1, h2, h3, h4]

mutual
theorem rt_value : ∀ (t : Json) (rest : B) (f : Nat), wfJ t = true → jfuel t ≤ f →
    numStopB rest = true → parseValue f (serJson t ++ rest) = some (t, rest)
  | .null, rest, f, _, hf, _ => by
    obtain ⟨f2, rfl⟩ : ∃ f2, f = f2 + 1 := ⟨f - 1, by simp [jfuel] at hf; omega⟩
    have e : serJson .null ++ rest = 110 :: (117 :: 108 :: 108 :: rest) := rfl
    rw [show f2 + 1 = Nat.succ f2 from rfl]
    simp [parseValue, e, skipWs, wsByte]
  | .bool true, rest, f, _, hf, _ => by
    obtain ⟨f2, rfl⟩ : ∃ f2, f = f2 + 1 := ⟨f - 1, by simp [jfuel] at hf; omega⟩
    have e : serJson (.bool true) ++ rest = 116 :: (114 :: 117 :: 101 :: rest) := rfl
    rw [show f2 + 1 = Nat.succ f2 from rfl]
    simp [parseValue, e, skipWs, wsByte]
  | .bool false, rest, f, _, hf, _ => by
    obtain ⟨f2, rfl⟩ : ∃ f2, f = f2 + 1 := ⟨f - 1, by simp [jfuel] at hf; omega⟩
    have e : serJson (.bool false) ++ rest = 102 :: (97 :: 108 :: 115 :: 101 :: rest) := rfl
    rw [show f2 + 1 = Nat.succ f2 from rfl]
    simp [parseValue, e, skipWs, wsByte]
  | .num lex, rest, f, hw, hf, hr => by
    obtain ⟨f2, rfl⟩ : ∃ f2, f = f2 + 1 := ⟨f - 1, by simp [jfuel] at hf; omega⟩
    have hp : parseNum lex = some (lex, []) := by simp [wfJ] at hw; exact hw
    obtain ⟨i, fr, ex, hl, _, hs1, _, _⟩ := parseNum_inv hp
    have hhead : ∃ c irest, lex = c :: irest ∧ (c = 45 ∨ isDigit c = true) := by
      rcases hs1 with ⟨i2, hi, _⟩ | his
      · refine ⟨45, i2 ++ (fr ++ ex), ?_, Or.inl rfl⟩
        rw [hl, hi]; simp
      · rcases his with hi | ⟨c, ds, hi, hd, _, _, _⟩
        · exact ⟨48, fr ++ ex, by rw [hl, hi]; simp, Or.inr (by decide)⟩
        · exact ⟨c, ds ++ (fr ++ ex), by rw [hl, hi]; simp, Or.inr hd⟩
    obtain ⟨c, irest, hlex, hcd⟩ := hhead
    obtain ⟨d123, d91, d34, d116, d102, d110, dws⟩ := num_head_facts hcd
    have hser : serJson (.num lex) ++ rest = c :: (irest ++ rest) := by
      simp [serJson, hlex]
    rw [show f2 + 1 = Nat.succ f2 from rfl]
    simp only [parseValue, hser, skipWs_cons c _ dws]
    rw [if_neg d123, if_neg d91, if_neg d34, if_neg d116, if_neg d102, if_neg d110]
    have hpn : parseNum (c :: (irest ++ rest)) = some (lex, rest) := by
      rw [show c :: (irest ++ rest) = lex ++ rest by simp [hlex]]
      exact parseNum_append hp hr
    rw [hpn]
    rfl
  | .str s, rest, f, _, hf, _ => by
    obtain ⟨f2, rfl⟩ : ∃ f2, f = f2 + 1 := ⟨f - 1, by simp [jfuel] at hf; omega⟩
    have hser : serJson (.str s) ++ rest = 34 :: (escapeJSON s ++ 34 :: rest) := by
      simp [serJson]
    rw [show f2 + 1 = Nat.succ f2 from rfl]
    simp only [parseValue, hser, skipWs_cons 34 _ (by decide)]
    simp [parseStr_escape_top]
  | .arr .nil, rest, f, _, hf, _ => by
    obtain ⟨f3, rfl⟩ : ∃ f3, f = f3 + 2 := ⟨f - 2, by simp [jfuel, jfuelA] at hf; omega⟩
    have hser : serJson (.arr .nil) ++ rest = 91 :: (93 :: rest) := rfl
    rw [show f3 + 2 = Nat.succ (Nat.succ f3) from rfl]
    simp [parseValue, hser, skipWs, wsByte, parseArrBody]
  | .arr (.cons v tl), rest, f, hw, hf, _ => by
    obtain ⟨f3, rfl⟩ : ∃ f3, f = f3 + 2 := ⟨f - 2, by simp [jfuel, jfuelA] at hf; omega⟩
    have hwa : wfJ v = true ∧ wfA tl = true := by simp [wfJ, wfA] at hw; exact hw
    have hser : serJson (.arr (.cons v tl)) ++ rest
        = 91 :: (serElems (.cons v tl) ++ 93 :: rest) := by
      simp [serJson]
    rw [show f3 + 2 = Nat.succ (f3 + 1) from rfl]
    simp only [parseValue, hser, skipWs_cons 91 _ (by decide)]
    simp only [if_true]
    obtain ⟨cv, xv, hv, hvws, hv93, _⟩ := serJson_head hwa.1
    have hsw : ∃ y, skipWs (serElems (.cons v tl) ++ 93 :: rest) = cv :: y := by
      cases tl with
      | nil => exact ⟨xv ++ 93 :: rest, by simp [serElems, hv, skipWs_cons cv _ hvws]⟩
      | cons v2 tl2 =>
        exact ⟨xv ++ 44 :: serElems (.cons v2 tl2) ++ 93 :: rest,
          by simp [serElems, hv, skipWs_cons cv _ hvws]⟩
    obtain ⟨y, hy⟩ := hsw
    rw [parseArrBody_cons hy hv93,
      rt_elems (.cons v tl) rest f3 (by simp) hw (by simp [jfuel, jfuelA] at hf ⊢; omega)]
    rfl
  | .obj .nil, rest, f, _, hf, _ => by
    obtain ⟨f3, rfl⟩ : ∃ f3, f = f3 + 2 := ⟨f - 2, by simp [jfuel, jfuelO] at hf; omega⟩
    have hser : serJson (.obj .nil) ++ rest = 123 :: (125 :: rest) := rfl
    rw [show f3 + 2 = Nat.succ (Nat.succ f3) from rfl]
    simp [parseValue, hser, skipWs, wsByte, parseObjBody]
  | .obj (.cons k v tl), rest, f, hw, hf, _ => by
    obtain ⟨f3, rfl⟩ : ∃ f3, f = f3 + 2 := ⟨f - 2, by simp [jfuel, jfuelO] at hf; omega⟩
    have hser : serJson (.obj (.cons k v tl)) ++ rest
        = 123 :: (serMembers (.cons k v tl) ++ 125 :: rest) := by
      simp [serJson]
    rw [show f3 + 2 = Nat.succ (f3 + 1) from rfl]
    simp only [parseValue, hser, skipWs_cons 123 _ (by decide)]
    simp only [if_true]
    have hsw : ∃ y, skipWs (serMembers (.cons k v tl) ++ 125 :: rest) = 34 :: y ∧
        serMembers (.cons k v tl) ++ 125 :: rest = 34 :: y := by
      cases tl with
      | nil =>
        refine ⟨escapeJSON k ++ 34 :: 58 :: serJson v ++ 125 :: rest, ?_, ?_⟩ <;>
          simp [serMembers, skipWs_cons 34 _ (by decide)]
      | cons k2 v2 tl2 =>
        refine ⟨escapeJSON k ++ 34 :: 58 :: serJson v
            ++ 44 :: serMembers (.cons k2 v2 tl2) ++ 125 :: rest, ?_, ?_⟩ <;>
          simp [serMembers, skipWs_cons 34 _ (by decide)]
    obtain ⟨y, hy, hy2⟩ := hsw
    rw [parseObjBody_cons hy (by decide), ← hy2,
      rt_members (.cons k v tl) .nil rest f3 (by simp)
        (by simp [wfJ] at hw; exact hw.2)
        (by simp [wfJ, keysO] at hw ⊢; exact hw.1)
        (by simp [jfuel, jfuelO] at hf ⊢; omega)]
    simp [appendObj_nil]
theorem rt_elems : ∀ (xs : JArr) (rest : B) (f : Nat), xs ≠ JArr.nil → wfA xs = true →
    jfuelA xs ≤ f → parseElems f (serElems xs ++ 93 :: rest) = some (xs, rest)
  | .nil, _, _, hne, _, _ => absurd rfl hne
  | .cons v tl, rest, f, _, hw, hf => by
    obtain ⟨f2, rfl⟩ : ∃ f2, f = f2 + 1 := ⟨f - 1, by simp [jfuelA] at hf; omega⟩
    have hwa : wfJ v = true ∧ wfA tl = true := by simp [wfA] at hw; exact hw
    rw [show f2 + 1 = Nat.succ f2 from rfl]
    cases tl with
    | nil =>
      have hser : serElems (JArr.cons v .nil) ++ 93 :: rest = serJson v ++ 93 :: rest := by
        simp [serElems]
      simp only [parseElems, hser]
      rw [rt_value v (93 :: rest) f2 hwa.1
        (by simp [jfuelA] at hf; omega) (numStopB_close 93 _ (by decide) (by decide) (by decide) (by decide))]
      simp [skipWs, wsByte]
    | cons v2 tl2 =>
      have hser : serElems (JArr.cons v (.cons v2 tl2)) ++ 93 :: rest
          = serJson v ++ (44 :: (serElems (.cons v2 tl2) ++ 93 :: rest)) := by
        simp [serElems]
      simp only [parseElems, hser]
      rw [rt_value v (44 :: (serElems (.cons v2 tl2) ++ 93 :: rest)) f2 hwa.1
        (by simp [jfuelA] at hf; omega) (numStopB_close 44 _ (by decide) (by decide) (by decide) (by decide))]
      simp only [skipWs_cons 44 _ (by decide)]
      rw [rt_elems (.cons v2 tl2) rest f2 (by simp) hwa.2
        (by simp [jfuelA] at hf ⊢; omega)]
      rfl
theorem rt_members : ∀ (fs : JObj) (acc : JObj) (rest : B) (f : Nat), fs ≠ JObj.nil →
    wfO fs = true → (keysO acc ++ keysO fs).Nodup → jfuelO fs ≤ f →
    parseMembers f (serMembers fs ++ 125 :: rest) acc = some (appendObj acc fs, rest)
  | .nil, _, _, _, hne, _, _, _ => absurd rfl hne
  | .cons k v tl, acc, rest, f, _, hw, hnd, hf => by
    obtain ⟨f2, rfl⟩ : ∃ f2, f = f2 + 1 := ⟨f - 1, by simp [jfuelO] at hf; omega⟩
    have hwv : wfJ v = true ∧ wfO tl = true := by simp [wfO] at hw; exact hw
    have hkfresh : k ∉ keysO acc := by
      intro hmem
      have := hnd
      rw [List.nodup_append] at this
      exact this.2.2 hmem (by simp [keysO])
    rw [show f2 + 1 = Nat.succ f2 from rfl]
    cases tl with
    | nil =>
      have hser : serMembers (JObj.cons k v .nil) ++ 125 :: rest
          = 34 :: (escapeJSON k ++ 34 :: (58 :: (serJson v ++ 125 :: rest))) := by
        simp [serMembers]
      simp only [parseMembers, hser, skipWs_cons 34 _ (by decide)]
      rw [parseStr_escape_top k (58 :: (serJson v ++ 125 :: rest))]
      simp only [skipWs_cons 58 _ (by decide)]
      rw [rt_value v (125 :: rest) f2 hwv.1 (by simp [jfuelO] at hf; omega)
        (numStopB_close 125 _ (by decide) (by decide) (by decide) (by decide))]
      simp only [skipWs_cons 125 _ (by decide)]
      rw [objSet_fresh v acc hkfresh]
    | cons k2 v2 tl2 =>
      have hser : serMembers (JObj.cons k v (.cons k2 v2 tl2)) ++ 125 :: rest
          = 34 :: (escapeJSON k ++ 34 :: (58 :: (serJson v
              ++ (44 :: (serMembers (.cons k2 v2 tl2) ++ 125 :: rest))))) := by
        simp [serMembers]
      simp only [parseMembers, hser, skipWs_cons 34 _ (by decide)]
      rw [parseStr_escape_top k
        (58 :: (serJson v ++ (44 :: (serMembers (.cons k2 v2 tl2) ++ 125 :: rest))))]
      simp only [skipWs_cons 58 _ (by decide)]
      rw [rt_value v (44 :: (serMembers (.cons k2 v2 tl2) ++ 125 :: rest)) f2 hwv.1
        (by simp [jfuelO] at hf; omega)
        (numStopB_close 44 _ (by decide) (by decide) (by decide) (by decide))]
      simp only [skipWs_cons 44 _ (by decide)]
      rw [objSet_fresh v acc hkfresh]
      rw [rt_members (.cons k2 v2 tl2) (appendObj acc (.cons k v .nil)) rest f2
        (by simp) hwv.2 ?_ (by simp [jfuelO] at hf ⊢; omega)]
      · rw [appendObj_assoc]
        rfl
      · rw [keysO_appendObj]
        have : keysO acc ++ keysO (JObj.cons k v .nil) ++ keysO (JObj.cons k2 v2 tl2)
            = keysO acc ++ keysO (JObj.cons k v (.cons k2 v2 tl2)) := by
          simp [keysO]
        rw [this]
        exact hnd
end

theorem parseNum_ne_nil {l r : B} (h : parseNum l = some (l, r)) : l ≠ [] := by
  intro hnil
  subst hnil
  simp [parseNum, numInt] at h

mutual
theorem jfuel_le : ∀ t : Json, wfJ t = true → jfuel t ≤ 2 * (serJson t).length
  | .null, _ => by simp [jfuel, serJson]
  | .bool b, _ => by cases b <;> simp [jfuel, serJson]
  | .str s, _ => by simp [jfuel, serJson]; omega
  | .num lex, hw => by
    have hp : parseNum lex = some (lex, []) := by simp [wfJ] at hw; exact hw
    have hne := parseNum_ne_nil hp
    have : 1 ≤ lex.length := by
      cases lex with
      | nil => exact absurd rfl hne
      | cons a b => simp
    simp [jfuel, serJson]
    omega
  | .arr xs, hw => by
    have h := jfuelA_le xs (by simpa [wfJ] using hw)
    simp [jfuel, serJson] at h ⊢
    omega
  | .obj fs, hw => by
    have h := jfuelO_le fs (by simp [wfJ] at hw; exact hw.2)
    simp [jfuel, serJson] at h ⊢
    omega
theorem jfuelA_le : ∀ xs : JArr, wfA xs = true → jfuelA xs ≤ 2 + 2 * (serElems xs).length
  | .nil, _ => by simp [jfuelA, serElems]
  | .cons v tl, hw => by
    have hwa : wfJ v = true ∧ wfA tl = true := by simp [wfA] at hw; exact hw
    have h1 := jfuel_le v hwa.1
    cases tl with
    | nil =>
      simp [jfuelA, serElems, Nat.max_le]
      omega
    | cons v2 tl2 =>
      have h2 := jfuelA_le (.cons v2 tl2) hwa.2
      simp [jfuelA, serElems, Nat.max_le] at h2 ⊢
      omega
theorem jfuelO_le : ∀ fs : JObj, wfO fs = true → jfuelO fs ≤ 2 + 2 * (serMembers fs).length
  | .nil, _ => by simp [jfuelO, serMembers]
  | .cons k v tl, hw => by
    have hwv : wfJ v = true ∧ wfO tl = true := by simp [wfO] at hw; exact hw
    have h1 := jfuel_le v hwv.1
    cases tl with
    | nil =>
      simp [jfuelO, serMembers, Nat.max_le]
      omega
    | cons k2 v2 tl2 =>
      have h2 := jfuelO_le (.cons k2 v2 tl2) hwv.2
      simp [jfuelO, serMembers, Nat.max_le] at h2 ⊢
      omega
end

/-- Decoding the serializer's output recovers a well-formed tree exactly. -/
theorem jsonUnmarshal_ser {t : Json} (hw : wfJ t = true) :
    jsonUnmarshal (serJson t) = some t := by
  have h := rt_value t [] (2 * (serJson t).length + 2) hw
    (le_trans (jfuel_le t hw) (by omega)) (by simp [numStopB])
  rw [List.append_nil] at h
  unfold jsonUnmarshal
  rw [h]
  simp [skipWs]

theorem pairEq {α β : Type} {a c : α} {b d : β} (h : (a, b) = (c, d)) : a = c ∧ b = d := by
  injection h with h1 h2
  exact ⟨h1, h2⟩

theorem keysO_objSet_mem {k x : B} {v : Json} :
    ∀ acc : JObj, x ∈ keysO (objSet acc k v) → x ∈ keysO acc ∨ x = k
  | .nil, h => by
    simp [objSet, keysO] at h
    exact Or.inr h
  | .cons k0 v0 tl, h => by
    by_cases hk : k0 = k
    · subst hk
      simp only [objSet, if_pos rfl, keysO, List.mem_cons] at h
      rcases h with rfl | h
      · exact Or.inl (by simp [keysO])
      · exact Or.inl (by simp [keysO, h])
    · simp only [objSet, if_neg hk, keysO, List.mem_cons] at h
      rcases h with rfl | h
      · exact Or.inl (by simp [keysO])
      · rcases keysO_objSet_mem tl h with h2 | h2
        · exact Or.inl (by simp [keysO, h2])
        · exact Or.inr h2

theorem objSet_sound (k : B) {v : Json} (hv : wfJ v = true) :
    ∀ acc : JObj, wfO acc = true → (keysO acc).Nodup →
      wfO (objSet acc k v) = true ∧ (keysO (objSet acc k v)).Nodup
  | .nil, _, _ => by simp [objSet, wfO, keysO, hv]
  | .cons k0 v0 tl, hw, hnd => by
    have hw2 : wfJ v0 = true ∧ wfO tl = true := by simp [wfO] at hw; exact hw
    have hnd2 : k0 ∉ keysO tl ∧ (keysO tl).Nodup := by simp [keysO] at hnd; exact hnd
    by_cases hk : k0 = k
    · subst hk
      constructor
      · simp [objSet, wfO, hv, hw2.2]
      · simpa [objSet, keysO] using ⟨hnd2.1, hnd2.2⟩
    · obtain ⟨ih1, ih2⟩ := objSet_sound k hv tl hw2.2 hnd2.2
      constructor
      · simp [objSet, hk, wfO, hw2.1, ih1]
      · simp only [objSet, if_neg hk, keysO, List.nodup_cons]
        refine ⟨?_, ih2⟩
        intro hmem
        rcases keysO_objSet_mem tl hmem with h2 | h2
        · exact hnd2.1 h2
        · exact hk h2

/-- Every tree any of the parser functions produces is well-formed. -/
theorem parse_wf : ∀ f : Nat,
    (∀ b t r, parseValue f b = some (t, r) → wfJ t = true) ∧
    (∀ b fs r, parseObjBody f b = some (fs, r) → wfO fs = true ∧ (keysO fs).Nodup) ∧
    (∀ b acc fs r, parseMembers f b acc = some (fs, r) → wfO acc = true →
      (keysO acc).Nodup → wfO fs = true ∧ (keysO fs).Nodup) ∧
    (∀ b xs r, parseArrBody f b = some (xs, r) → wfA xs = true) ∧
    (∀ b xs r, parseElems f b = some (xs, r) → wfA xs = true) := by
  intro f
  induction f with
  | zero =>
    refine ⟨?_, ?_, ?_, ?_, ?_⟩ <;> intro b
    · intro t r h; simp [parseValue] at h
    · intro fs r h; simp [parseObjBody] at h
    · intro acc fs r h; simp [parseMembers] at h
    · intro xs r h; simp [parseArrBody] at h
    · intro xs r h; simp [parseElems] at h
  | succ f ih =>
    obtain ⟨ihV, ihO, ihM, ihA, ihE⟩ := ih
    refine ⟨?_, ?_, ?_, ?_, ?_⟩
    · intro b t r h
      simp only [parseValue] at h
      cases hsw : skipWs b with
      | nil =>
        simp only [hsw] at h
        exact Option.noConfusion h
      | cons c rest =>
        simp only [hsw] at h
        by_cases h123 : c = 123
        · rw [if_pos h123] at h
          obtain ⟨⟨fs, r2⟩, hob, heq⟩ := Option.map_eq_some'.mp h
          obtain ⟨rfl, rfl⟩ := pairEq heq
          obtain ⟨hwf, hnd⟩ := ihO rest fs r2 hob
          simp [wfJ, hwf, hnd]
        · rw [if_neg h123] at h
          by_cases h91 : c = 91
          · rw [if_pos h91] at h
            obtain ⟨⟨xs, r2⟩, hab, heq⟩ := Option.map_eq_some'.mp h
            obtain ⟨rfl, rfl⟩ := pairEq heq
            simpa [wfJ] using ihA rest xs r2 hab
          · rw [if_neg h91] at h
            by_cases h34 : c = 34
            · rw [if_pos h34] at h
              obtain ⟨⟨s, r2⟩, _, heq⟩ := Option.map_eq_some'.mp h
              obtain ⟨rfl, rfl⟩ := pairEq heq
              simp [wfJ]
            · rw [if_neg h34] at h
              by_cases h116 : c = 116
              · rw [if_pos h116] at h
                split at h
                · obtain ⟨rfl, rfl⟩ := pairEq (Option.some.inj h)
                  simp [wfJ]
                · simp at h
              · rw [if_neg h116] at h
                by_cases h102 : c = 102
                · rw [if_pos h102] at h
                  split at h
                  · obtain ⟨rfl, rfl⟩ := pairEq (Option.some.inj h)
                    simp [wfJ]
                  · simp at h
                · rw [if_neg h102] at h
                  by_cases h110 : c = 110
                  · rw [if_pos h110] at h
                    split at h
                    · obtain ⟨rfl, rfl⟩ := pairEq (Option.some.inj h)
                      simp [wfJ]
                    · simp at h
                  · rw [if_neg h110] at h
                    obtain ⟨⟨lex, r2⟩, hpn, heq⟩ := Option.map_eq_some'.mp h
                    obtain ⟨rfl, rfl⟩ := pairEq heq
                    simp [wfJ]
                    exact parseNum_self hpn
    · intro b fs r h
      simp only [parseObjBody] at h
      split at h
      · obtain ⟨rfl, rfl⟩ := pairEq (Option.some.inj h)
        exact ⟨rfl, by simp [keysO]⟩
      · exact ihM _ _ _ _ h rfl (by simp [keysO])
    · intro b acc fs r h hacc hnd
      simp only [parseMembers] at h
      split at h
      · rename_i rest heq2
        cases hps : parseStr rest with
        | none =>
          simp only [hps] at h
          exact Option.noConfusion h
        | some p =>
          obtain ⟨k, rest2⟩ := p
          simp only [hps] at h
          split at h
          · rename_i rest3 heq3
            cases hpv : parseValue f rest3 with
            | none =>
              simp only [hpv] at h
              exact Option.noConfusion h
            | some q =>
              obtain ⟨v, rest4⟩ := q
              simp only [hpv] at h
              have hv := ihV rest3 v rest4 hpv
              obtain ⟨hw2, hnd2⟩ := objSet_sound k hv acc hacc hnd
              split at h
              · exact ihM _ _ _ _ h hw2 hnd2
              · obtain ⟨rfl, rfl⟩ := pairEq (Option.some.inj h)
                exact ⟨hw2, hnd2⟩
              · simp at h
          · simp at h
      · simp at h
    · intro b xs r h
      simp only [parseArrBody] at h
      split at h
      · obtain ⟨rfl, rfl⟩ := pairEq (Option.some.inj h)
        rfl
      · exact ihE _ _ _ h
    · intro b xs r h
      simp only [parseElems] at h
      cases hpv : parseValue f b with
      | none =>
        simp only [hpv] at h
        exact Option.noConfusion h
      | some q =>
        obtain ⟨v, rest⟩ := q
        simp only [hpv] at h
        have hv := ihV b v rest hpv
        split at h
        · obtain ⟨⟨xs2, r2⟩, he, heq⟩ := Option.map_eq_some'.mp h
          obtain ⟨rfl, rfl⟩ := pairEq heq
          simp [wfA, hv, ihE _ _ _ he]
        · obtain ⟨rfl, rfl⟩ := pairEq (Option.some.inj h)
          simp [wfA, hv]
        · simp at h

/-!
## Redaction and key-sorting algebra
-/

theorem preview_long {s : B} (h : ¬ s.length ≤ 16) :
    TruncatePreview s = s.take 8 ++ ellipsisBytes ++ s.drop (s.length - 8) := by
  rw [TruncatePreview, if_neg (by simpa [maxPreviewLen] using h)]
  norm_num [maxPreviewLen]

theorem preview_idem (s : B) : TruncatePreview (TruncatePreview s) = TruncatePreview s := by
  by_cases h : s.length ≤ 16
  · simp [TruncatePreview, maxPreviewLen, h]
  · have hres := preview_long h
    have ha : (s.take 8).length = 8 := by simp; omega
    have hlen : (s.take 8 ++ ellipsisBytes ++ s.drop (s.length - 8)).length = 19 := by
      simp [ellipsisBytes]
      omega
    have hL : ¬ (s.take 8 ++ ellipsisBytes ++ s.drop (s.length - 8)).length ≤ 16 := by
      rw [hlen]; omega
    rw [hres, preview_long hL, hlen]
    have h1 : (s.take 8 ++ ellipsisBytes ++ s.drop (s.length - 8)).take 8 = s.take 8 := by
      rw [List.append_assoc, List.take_left' ha]
    have h2 : (s.take 8 ++ ellipsisBytes ++ s.drop (s.length - 8)).drop (19 - 8)
        = s.drop (s.length - 8) := by
      have he : (s.take 8 ++ ellipsisBytes).length = 19 - 8 := by
        simp [ellipsisBytes]
        omega
      rw [List.drop_left' he]
    rw [h1, h2]

theorem preview_mask : TruncatePreview RedactionMask = RedactionMask := by decide

mutual
theorem redact_idem : ∀ t : Json, redactJSONNode (redactJSONNode t) = redactJSONNode t
  | .null => rfl
  | .bool _ => rfl
  | .num _ => rfl
  | .str s => by simp [redactJSONNode, preview_idem]
  | .arr xs => by simp [redactJSONNode, redactA_idem xs]
  | .obj fs => by simp [redactJSONNode, redactO_idem fs]
theorem redactA_idem : ∀ xs : JArr, redactArr (redactArr xs) = redactArr xs
  | .nil => rfl
  | .cons v tl => by simp [redactArr, redact_idem v, redactA_idem tl]
theorem redactO_idem : ∀ fs : JObj, redactObj (redactObj fs) = redactObj fs
  | .nil => rfl
  | .cons k v tl => by
    by_cases hk : IsSensitiveKey k = true
    · simp [redactObj, hk, redactO_idem tl, redactJSONNode, preview_mask]
    · simp [redactObj, hk, redact_idem v, redactO_idem tl]
end

theorem keysO_redactObj : ∀ fs : JObj, keysO (redactObj fs) = keysO fs
  | .nil => rfl
  | .cons k v tl => by
    by_cases hk : IsSensitiveKey k = true <;>
      simp [redactObj, hk, keysO, keysO_redactObj tl]

mutual
theorem redact_wf : ∀ t : Json, wfJ t = true → wfJ (redactJSONNode t) = true
  | .null, _ => rfl
  | .bool _, _ => rfl
  | .num lex, hw => hw
  | .str s, _ => rfl
  | .arr xs, hw => by
    simp [redactJSONNode, wfJ] at hw ⊢
    exact redactA_wf xs hw
  | .obj fs, hw => by
    simp [redactJSONNode, wfJ, keysO_redactObj] at hw ⊢
    exact ⟨hw.1, redactO_wf fs hw.2⟩
theorem redactA_wf : ∀ xs : JArr, wfA xs = true → wfA (redactArr xs) = true
  | .nil, _ => rfl
  | .cons v tl, hw => by
    simp [redactArr, wfA] at hw ⊢
    exact ⟨redact_wf v hw.1, redactA_wf tl hw.2⟩
theorem redactO_wf : ∀ fs : JObj, wfO fs = true → wfO (redactObj fs) = true
  | .nil, _ => rfl
  | .cons k v tl, hw => by
    simp [wfO] at hw
    by_cases hk : IsSensitiveKey k = true
    · simp [redactObj, hk, wfO, wfJ, redactO_wf tl hw.2]
    · simp [redactObj, hk, wfO, redact_wf v hw.1, redactO_wf tl hw.2]
end

/-- The entry transformation `redactObj` applies to a single member. -/
theorem redactObj_cons (k : B) (v : Json) (tl : JObj) :
    redactObj (.cons k v tl)
      = .cons k (if IsSensitiveKey k then .str RedactionMask else redactJSONNode v)
          (redactObj tl) := by
  by_cases hk : IsSensitiveKey k = true
  · simp [redactObj, hk]
  · simp [redactObj, hk]

theorem redactObj_insField (k : B) (v : Json) :
    ∀ fs : JObj, redactObj (insField k v fs)
      = insField k (if IsSensitiveKey k then .str RedactionMask else redactJSONNode v)
          (redactObj fs)
  | .nil => by
    rw [show insField k v JObj.nil = JObj.cons k v JObj.nil from rfl,
      redactObj_cons k v JObj.nil]
    rfl
  | .cons k0 v0 tl => by
    by_cases hle : lexLe k k0 = true
    · simp [insField, hle, redactObj_cons]
    · simp [insField, hle, redactObj_cons, redactObj_insField k v tl]

theorem redactObj_sortFields : ∀ fs : JObj,
    redactObj (sortFields fs) = sortFields (redactObj fs)
  | .nil => rfl
  | .cons k v tl => by
    rw [show sortFields (JObj.cons k v tl) = insField k v (sortFields tl) from rfl,
      redactObj_insField, redactObj_sortFields tl, redactObj_cons]
    rfl

mutual
theorem redact_sortJ : ∀ t : Json,
    redactJSONNode (sortJ t) = sortJ (redactJSONNode t)
  | .null => rfl
  | .bool _ => rfl
  | .num _ => rfl
  | .str s => rfl
  | .arr xs => by simp [sortJ, redactJSONNode, redact_sortA xs]
  | .obj fs => by
    simp only [sortJ, redactJSONNode]
    rw [redactObj_sortFields, redactO_sortVals fs]
theorem redact_sortA : ∀ xs : JArr, redactArr (sortValsA xs) = sortValsA (redactArr xs)
  | .nil => rfl
  | .cons v tl => by simp [sortValsA, redactArr, redact_sortJ v, redact_sortA tl]
theorem redactO_sortVals : ∀ fs : JObj, redactObj (sortValsO fs) = sortValsO (redactObj fs)
  | .nil => rfl
  | .cons k v tl => by
    by_cases hk : IsSensitiveKey k = true
    · simp [sortValsO, redactObj_cons, hk, redactO_sortVals tl, sortJ]
    · simp [sortValsO, redactObj_cons, hk, redactO_sortVals tl, redact_sortJ v]
end

theorem lexLe_total (a b0 : B) : lexLe a b0 = true ∨ lexLe b0 a = true := by
  induction a generalizing b0 with
  | nil => exact Or.inl rfl
  | cons x s ih =>
    cases b0 with
    | nil => exact Or.inr rfl
    | cons y t =>
      by_cases hxy : x < y
      · exact Or.inl (by simp [lexLe, hxy])
      · by_cases hyx : y < x
        · exact Or.inr (by simp [lexLe, hyx, show ¬ y > x by omega])
        · have hxe : ¬ x < y ∧ ¬ y < x := ⟨hxy, hyx⟩
          rcases ih t with h | h
          · exact Or.inl (by simp [lexLe, hxe.1, show ¬ x > y by omega, h])
          · exact Or.inr (by simp [lexLe, hxe.2, show ¬ y > x by omega, h])

theorem insField_sorted (k : B) (v : Json) :
    ∀ fs : JObj, sortedO fs = true → sortedO (insField k v fs) = true
  | .nil, _ => rfl
  | .cons k0 v0 tl, hs => by
    by_cases hle : lexLe k k0 = true
    · simp [insField, hle, sortedO, hs]
    · have hge : lexLe k0 k = true := by
        rcases lexLe_total k k0 with h | h
        · exact absurd h hle
        · exact h
      cases tl with
      | nil => simp [insField, hle, sortedO, hge]
      | cons k2 v2 tl2 =>
        have hs2 : lexLe k0 k2 = true ∧ sortedO (JObj.cons k2 v2 tl2) = true := by
          simp [sortedO] at hs
          exact hs
        have ih := insField_sorted k v (JObj.cons k2 v2 tl2) hs2.2
        by_cases hle2 : lexLe k k2 = true
        · simp [insField, hle, hle2, sortedO, hge] at ih ⊢
          exact ih
        · simp [insField, hle, hle2, sortedO, hs2.1] at ih ⊢
          exact ih

theorem sortFields_sorted : ∀ fs : JObj, sortedO (sortFields fs) = true
  | .nil => rfl
  | .cons k v tl => insField_sorted k v (sortFields tl) (sortFields_sorted tl)

theorem sortFields_of_sorted : ∀ fs : JObj, sortedO fs = true → sortFields fs = fs
  | .nil, _ => rfl
  | .cons k v .nil, _ => rfl
  | .cons k v (.cons k2 v2 tl), hs => by
    have hs2 : lexLe k k2 = true ∧ sortedO (JObj.cons k2 v2 tl) = true := by
      simp [sortedO] at hs
      exact hs
    rw [show sortFields (JObj.cons k v (.cons k2 v2 tl))
        = insField k v (sortFields (.cons k2 v2 tl)) from rfl,
      sortFields_of_sorted (.cons k2 v2 tl) hs2.2]
    simp [insField, hs2.1]

theorem sortFields_idem (fs : JObj) : sortFields (sortFields fs) = sortFields fs :=
  sortFields_of_sorted (sortFields fs) (sortFields_sorted fs)

theorem sortValsO_insField (k : B) (v : Json) :
    ∀ fs : JObj, sortValsO (insField k v fs) = insField k (sortJ v) (sortValsO fs)
  | .nil => rfl
  | .cons k0 v0 tl => by
    by_cases hle : lexLe k k0 = true <;>
      simp [insField, hle, sortValsO, sortValsO_insField k v tl]

theorem sortValsO_sortFields : ∀ fs : JObj,
    sortValsO (sortFields fs) = sortFields (sortValsO fs)
  | .nil => rfl
  | .cons k v tl => by
    rw [show sortFields (JObj.cons k v tl) = insField k v (sortFields tl) from rfl,
      sortValsO_insField, sortValsO_sortFields tl]
    rfl

mutual
theorem sortJ_idem : ∀ t : Json, sortJ (sortJ t) = sortJ t
  | .null => rfl
  | .bool _ => rfl
  | .num _ => rfl
  | .str _ => rfl
  | .arr xs => by simp [sortJ, sortA_idem xs]
  | .obj fs => by
    simp only [sortJ]
    rw [sortValsO_sortFields, sortO_valsIdem fs, sortFields_idem]
theorem sortA_idem : ∀ xs : JArr, sortValsA (sortValsA xs) = sortValsA xs
  | .nil => rfl
  | .cons v tl => by simp [sortValsA, sortJ_idem v, sortA_idem tl]
theorem sortO_valsIdem : ∀ fs : JObj, sortValsO (sortValsO fs) = sortValsO fs
  | .nil => rfl
  | .cons k v tl => by simp [sortValsO, sortJ_idem v, sortO_valsIdem tl]
end

/-- What `jsonUnmarshal` returns is well-formed. -/
theorem jsonUnmarshal_wf {b : B} {m : Json} (h : jsonUnmarshal b = some m) : wfJ m = true := by
  unfold jsonUnmarshal at h
  cases hpv : parseValue (2 * b.length + 2) b with
  | none => rw [hpv] at h; simp at h
  | some p =>
    obtain ⟨t, rest⟩ := p
    rw [hpv] at h
    have hw := (parse_wf (2 * b.length + 2)).1 b t rest hpv
    by_cases hsw : skipWs rest = []
    · simp [hsw] at h
      exact h ▸ hw
    · simp [hsw] at h

/-- Inserting a member permutes the key list by a cons. -/
theorem keysO_insField_perm (k : B) (v : Json) :
    ∀ fs : JObj, (keysO (insField k v fs)).Perm (k :: keysO fs)
  | .nil => by simp [insField, keysO]
  | .cons k0 v0 tl => by
    by_cases hle : lexLe k k0 = true
    · simp [insField, hle, keysO]
    · simp only [insField, hle, if_false, Bool.false_eq_true, keysO]
      exact ((keysO_insField_perm k v tl).cons k0).trans (List.Perm.swap k k0 _)

/-- Sorting members permutes the key list. -/
theorem keysO_sortFields_perm : ∀ fs : JObj, (keysO (sortFields fs)).Perm (keysO fs)
  | .nil => by simp [sortFields]
  | .cons k v tl => by
    simp only [sortFields, keysO]
    exact (keysO_insField_perm k v (sortFields tl)).trans
      ((keysO_sortFields_perm tl).cons k)

/-- Sorting member values keeps the key list. -/
theorem keysO_sortValsO : ∀ fs : JObj, keysO (sortValsO fs) = keysO fs
  | .nil => rfl
  | .cons k v tl => by simp [sortValsO, keysO, keysO_sortValsO tl]

/-- Inserting a well-formed value keeps member-value well-formedness. -/
theorem wfO_insField (k : B) (v : Json) (hv : wfJ v = true) :
    ∀ fs : JObj, wfO fs = true → wfO (insField k v fs) = true
  | .nil, _ => by simp [insField, wfO, hv]
  | .cons k0 v0 tl, h => by
    simp only [wfO, Bool.and_eq_true] at h
    by_cases hle : lexLe k k0 = true
    · simp [insField, hle, wfO, hv, h.1, h.2]
    · simp [insField, hle, wfO, h.1, wfO_insField k v hv tl h.2]

/-- Sorting members keeps member-value well-formedness. -/
theorem wfO_sortFields : ∀ fs : JObj, wfO fs = true → wfO (sortFields fs) = true
  | .nil, _ => rfl
  | .cons k v tl, h => by
    simp only [wfO, Bool.and_eq_true] at h
    exact wfO_insField k v h.1 _ (wfO_sortFields tl h.2)

mutual
/-- `sortJ` preserves well-formedness of the tree. -/
theorem sortJ_wf : ∀ t : Json, wfJ t = true → wfJ (sortJ t) = true
  | .null, h => h
  | .bool _, h => h
  | .num _, h => h
  | .str _, h => h
  | .arr xs, h => by
    simp only [wfJ] at h
    simp only [sortJ, wfJ]
    exact sortValsA_wf xs h
  | .obj fs, h => by
    simp only [wfJ, Bool.and_eq_true, decide_eq_true_eq] at h
    simp only [sortJ, wfJ, Bool.and_eq_true, decide_eq_true_eq]
    refine ⟨?_, wfO_sortFields _ (sortValsO_wf fs h.2)⟩
    have hp : (keysO (sortFields (sortValsO fs))).Perm (keysO fs) := by
      have hq := keysO_sortFields_perm (sortValsO fs)
      rw [keysO_sortValsO] at hq
      exact hq
    exact hp.symm.nodup h.1
/-- `sortJ` preserves well-formedness: array elements. -/
theorem sortValsA_wf : ∀ xs : JArr, wfA xs = true → wfA (sortValsA xs) = true
  | .nil, _ => rfl
  | .cons v tl, h => by
    simp only [wfA, Bool.and_eq_true] at h
    simp only [sortValsA, wfA, Bool.and_eq_true]
    exact ⟨sortJ_wf v h.1, sortValsA_wf tl h.2⟩
/-- `sortJ` preserves well-formedness: member values. -/
theorem sortValsO_wf : ∀ fs : JObj, wfO fs = true → wfO (sortValsO fs) = true
  | .nil, _ => rfl
  | .cons k v tl, h => by
    simp only [wfO, Bool.and_eq_true] at h
    simp only [sortValsO, wfO, Bool.and_eq_true]
    exact ⟨sortJ_wf v h.1, sortValsO_wf tl h.2⟩
end

mutual
/-- On trees with no sensitive key and only short string leaves, the
walker is the identity. -/
theorem plain_red_id : ∀ t : Json, plainJ t = true → redactJSONNode t = t
  | .null, _ => rfl
  | .bool _, _ => rfl
  | .num _, _ => rfl
  | .str s, h => by
    simp only [plainJ, decide_eq_true_eq] at h
    simp [redactJSONNode, TruncatePreview, maxPreviewLen, h]
  | .arr xs, h => by
    simp only [plainJ] at h
    simp only [redactJSONNode, plain_redA_id xs h]
  | .obj fs, h => by
    simp only [plainJ] at h
    simp only [redactJSONNode, plain_redO_id fs h]
/-- `plain_red_id` over array elements. -/
theorem plain_redA_id : ∀ xs : JArr, plainA xs = true → redactArr xs = xs
  | .nil, _ => rfl
  | .cons v tl, h => by
    simp only [plainA, Bool.and_eq_true] at h
    simp only [redactArr, plain_red_id v h.1, plain_redA_id tl h.2]
/-- `plain_red_id` over object members. -/
theorem plain_redO_id : ∀ fs : JObj, plainO fs = true → redactObj fs = fs
  | .nil, _ => rfl
  | .cons k v tl, h => by
    simp only [plainO, Bool.and_eq_true] at h
    obtain ⟨⟨h1, h2⟩, h3⟩ := h
    have hk : IsSensitiveKey k = false := by simpa using h1
    simp [redactObj, hk, plain_red_id v h2, plain_redO_id tl h3]
end

/-- C5: the JSON Body Redactor is idempotent — for every byte buffer `b`,
`RedactJSONBytes (RedactJSONBytes b) = RedactJSONBytes b`; masks and
truncated previews are stable under re-application. -/
theorem C5_json_redaction_idempotent (b : B) :
    RedactJSONBytes (RedactJSONBytes b) = RedactJSONBytes b := by
  cases hm : jsonUnmarshal b with
  | none => simp [RedactJSONBytes, hm]
  | some m =>
    have hw : wfJ m = true := jsonUnmarshal_wf hm
    have hs : wfJ (sortJ (redactJSONNode m)) = true := sortJ_wf _ (redact_wf m hw)
    have h2 : jsonUnmarshal (serJson (sortJ (redactJSONNode m)))
        = some (sortJ (redactJSONNode m)) := jsonUnmarshal_ser hs
    conv_lhs => rw [show RedactJSONBytes b = serJson (sortJ (redactJSONNode m)) by
      simp [RedactJSONBytes, hm, jsonMarshal]]
    simp only [RedactJSONBytes, h2, hm, jsonMarshal]
    congr 1
    calc sortJ (redactJSONNode (sortJ (redactJSONNode m)))
        = sortJ (sortJ (redactJSONNode (redactJSONNode m))) := by rw [redact_sortJ]
      _ = sortJ (redactJSONNode (redactJSONNode m)) := sortJ_idem _
      _ = sortJ (redactJSONNode m) := by rw [redact_idem]

/-- C9: on a byte buffer that decodes to a document with no sensitive key
at any depth and whose every string leaf is at most 16 bytes, the JSON
Body Redactor's output decodes to a document deep-equal to the input
(equal after recursively sorting object members into the canonical key
order, which is Go map deep-equality on trees with distinct keys). -/
theorem C9_plain_documents_roundtrip (b : B) (m : Json)
    (h : jsonUnmarshal b = some m) (hp : plainJ m = true) :
    ∃ m2 : Json, jsonUnmarshal (RedactJSONBytes b) = some m2 ∧ sortJ m2 = sortJ m := by
  have hw := jsonUnmarshal_wf h
  have hrb : RedactJSONBytes b = serJson (sortJ m) := by
    simp only [RedactJSONBytes, h, jsonMarshal, plain_red_id m hp]
  exact ⟨sortJ m, by rw [hrb]; exact jsonUnmarshal_ser (sortJ_wf m hw), sortJ_idem m⟩

/-- C9 witness at the concrete document `[true,"ab"]`. -/
theorem C9_plain_documents_roundtrip_witness :
    ∃ m2 : Json, jsonUnmarshal (RedactJSONBytes (asciiBytes "[true,\"ab\"]")) = some m2 ∧
      sortJ m2 = sortJ (Json.arr (.cons (.bool true) (.cons (.str (asciiBytes "ab")) .nil))) :=
  C9_plain_documents_roundtrip _ _ (by rfl) (by rfl)

/-!
## URL query round-trip lemmas
-/

theorem containsSub_single {a : Nat} {l : B} (h : a ∉ l) : containsSub l [a] = false := by
  simp only [containsSub, decide_eq_false_iff_not]
  intro hinf
  exact h (List.singleton_sublist.mp hinf.sublist)

theorem hexVal_lt {c a : Nat} (h : hexVal c = some a) : a < 16 := by
  unfold hexVal at h
  split_ifs at h <;> simp only [Option.some.injEq] at h <;> omega

theorem hexVal_upperHexDigit {n : Nat} (h : n < 16) : hexVal (upperHexDigit n) = some n := by
  interval_cases n <;> rfl

theorem upperHexDigit_notSpecial (n : Nat) :
    upperHexDigit n ≠ 38 ∧ upperHexDigit n ≠ 59 ∧ upperHexDigit n ≠ 61 := by
  unfold upperHexDigit
  split <;> omega

theorem queryEscape_mem : ∀ {v : B} {c : Nat}, c ∈ queryEscape v →
    c ≠ 38 ∧ c ≠ 59 ∧ c ≠ 61
  | a :: rest, c, h => by
    simp only [queryEscape, List.mem_append] at h
    rcases h with h | h
    · by_cases h32 : a = 32
      · simp [h32] at h
        omega
      · by_cases hesc : shouldEscapeQuery a = true
        · simp only [if_neg h32, hesc, if_true, List.mem_cons,
            List.mem_singleton, List.not_mem_nil, or_false] at h
          rcases h with rfl | rfl | rfl
          · omega
          · exact upperHexDigit_notSpecial _
          · exact upperHexDigit_notSpecial _
        · simp only [if_neg h32, if_neg hesc, List.mem_singleton] at h
          subst h
          simp [shouldEscapeQuery, isAlnum, isAlpha, isDigit] at hesc
          omega
    · exact queryEscape_mem h

theorem qu_pct {h1 h2 a b0 : Nat} (rest : B) (ha : hexVal h1 = some a)
    (hb : hexVal h2 = some b0) :
    queryUnescape (37 :: h1 :: h2 :: rest)
      = (queryUnescape rest).map (fun r => (a * 16 + b0) :: r) := by
  simp [queryUnescape, ha, hb]

theorem qu_plus (rest : B) :
    queryUnescape (43 :: rest) = (queryUnescape rest).map (fun r => 32 :: r) := rfl

theorem qu_plain {c : Nat} (rest : B) (h37 : c ≠ 37) (h43 : c ≠ 43) :
    queryUnescape (c :: rest) = (queryUnescape rest).map (fun r => c :: r) := by
  rw [queryUnescape.eq_def]
  split
  · next heq => exact List.noConfusion heq
  · next heq =>
    rw [List.cons.injEq] at heq
    exact absurd heq.1 h37
  · next heq =>
    rw [List.cons.injEq] at heq
    exact absurd heq.1 h37
  · next heq =>
    rw [List.cons.injEq] at heq
    exact absurd heq.1 h43
  · next c2 r2 heq =>
    rw [List.cons.injEq] at heq
    rw [heq.1, heq.2]

theorem qu_qe : ∀ v : B, bytesLt v = true → queryUnescape (queryEscape v) = some v
  | [], _ => rfl
  | a :: rest, h => by
    simp only [bytesLt, List.all_cons, Bool.and_eq_true, decide_eq_true_eq] at h
    obtain ⟨ha, hrest⟩ := h
    have ih := qu_qe rest (by simpa [bytesLt] using hrest)
    by_cases h32 : a = 32
    · subst h32
      rw [show queryEscape (32 :: rest) = 43 :: queryEscape rest from rfl]
      rw [qu_plus, ih]
      rfl
    · by_cases hesc : shouldEscapeQuery a = true
      · simp only [queryEscape, if_neg h32, hesc, if_true, List.cons_append,
          List.nil_append]
        rw [qu_pct _ (hexVal_upperHexDigit (by omega)) (hexVal_upperHexDigit (by omega)),
          ih]
        have he : a / 16 * 16 + a % 16 = a := by omega
        rw [he]
        rfl
      · have h37 : a ≠ 37 := fun e => hesc (by rw [e]; decide)
        have h43 : a ≠ 43 := fun e => hesc (by rw [e]; decide)
        simp only [queryEscape, if_neg h32, if_neg hesc, List.cons_append,
          List.nil_append]
        rw [qu_plain _ h37 h43, ih]
        rfl

theorem cutByte_not_mem {sep : Nat} : ∀ {l : B}, sep ∉ l → cutByte sep l = (l, none)
  | [], _ => rfl
  | c :: rest, h => by
    simp only [List.mem_cons, not_or] at h
    have hne : ¬ c = sep := fun e => h.1 e.symm
    simp only [cutByte, if_neg hne, cutByte_not_mem h.2]

theorem cutByte_split {sep : Nat} : ∀ {l1 : B} (l2 : B), sep ∉ l1 →
    cutByte sep (l1 ++ sep :: l2) = (l1, some l2)
  | [], l2, _ => by simp [cutByte]
  | c :: rest, l2, h => by
    simp only [List.mem_cons, not_or] at h
    have hne : ¬ c = sep := fun e => h.1 e.symm
    have hr := cutByte_split l2 h.2
    simp only [List.cons_append, cutByte, if_neg hne]
    exact show (c :: (cutByte sep (rest ++ sep :: l2)).1,
        (cutByte sep (rest ++ sep :: l2)).2) = (c :: rest, some l2) by
      rw [hr]

theorem cutByte_mem1 {sep : Nat} : ∀ {l : B} {c : Nat}, c ∈ (cutByte sep l).1 → c ∈ l
  | [], c, h => by simp [cutByte] at h
  | a :: rest, c, h => by
    by_cases he : a = sep
    · simp [cutByte, he] at h
    · simp only [cutByte, if_neg he, List.mem_cons] at h
      rcases h with rfl | h
      · exact List.mem_cons_self _ _
      · exact List.mem_cons_of_mem _ (cutByte_mem1 h)

theorem cutByte_mem2 {sep : Nat} : ∀ {l r : B} {c : Nat},
    (cutByte sep l).2 = some r → c ∈ r → c ∈ l
  | [], r, c, h, _ => by simp [cutByte] at h
  | a :: rest, r, c, h, hc => by
    by_cases he : a = sep
    · simp only [cutByte, if_pos he, Option.some.injEq] at h
      exact List.mem_cons_of_mem _ (h ▸ hc)
    · simp only [cutByte, if_neg he] at h
      exact List.mem_cons_of_mem _ (cutByte_mem2 h hc)

theorem encodePair_not38 {k v : B} : 38 ∉ encodePair k v := by
  intro h
  simp only [encodePair, List.mem_append, List.mem_cons] at h
  rcases h with h | h | h
  · exact (queryEscape_mem h).1 rfl
  · omega
  · exact (queryEscape_mem h).1 rfl

theorem encodePair_not59 {k v : B} : 59 ∉ encodePair k v := by
  intro h
  simp only [encodePair, List.mem_append, List.mem_cons] at h
  rcases h with h | h | h
  · exact (queryEscape_mem h).2.1 rfl
  · omega
  · exact (queryEscape_mem h).2.1 rfl

theorem encodePair_len {k v : B} : 1 ≤ (encodePair k v).length := by
  simp [encodePair]
  omega

theorem encodePair_ne_nil {k v : B} : encodePair k v ≠ [] := by
  intro e
  have h := encodePair_len (k := k) (v := v)
  rw [e] at h
  simp at h

theorem cut61_encodePair {k v : B} :
    cutByte 61 (encodePair k v) = (queryEscape k, some (queryEscape v)) :=
  cutByte_split _ (fun h => (queryEscape_mem h).2.2 rfl)

theorem queryPairStep_encoded {k v : B} (hk : bytesLt k = true)
    (hv : bytesLt v = true) (acc : Values) :
    queryPairStep (encodePair k v) acc = appendVal acc k v := by
  have h59 : containsSub (encodePair k v) [59] = false :=
    containsSub_single encodePair_not59
  simp only [queryPairStep, h59, Bool.false_eq_true, if_false,
    if_neg (encodePair_ne_nil (k := k) (v := v)), cut61_encodePair,
    Option.getD_some, qu_qe k hk, qu_qe v hv]

theorem parseQueryAux_cons {f : Nat} {q : B} (hne : q ≠ []) (acc : Values) :
    parseQueryAux (f + 1) q acc =
      match (cutByte 38 q).2 with
      | some rest => parseQueryAux f rest (queryPairStep (cutByte 38 q).1 acc)
      | none => queryPairStep (cutByte 38 q).1 acc := by
  obtain ⟨c, x, rfl⟩ := List.exists_cons_of_ne_nil hne
  rfl

theorem joinAmp_length : ∀ ps : List B, (∀ x ∈ ps, 1 ≤ x.length) →
    ps.length ≤ (joinAmp ps).length
  | [], _ => by simp [joinAmp]
  | [x], h => by
    simpa [joinAmp] using h x (by simp)
  | x :: y :: tl, h => by
    have ih := joinAmp_length (y :: tl) (fun z hz => h z (List.mem_cons_of_mem _ hz))
    have hx := h x (by simp)
    simp only [joinAmp, List.length_append, List.length_cons] at ih ⊢
    omega

theorem parseQuery_encodePairs :
    ∀ (ps : List (B × B)) (f : Nat) (acc : Values), ps.length < f →
      (∀ p ∈ ps, bytesLt p.1 = true ∧ bytesLt p.2 = true) →
      parseQueryAux f (joinAmp (ps.map (fun p => encodePair p.1 p.2))) acc
        = ps.foldl (fun a p => appendVal a p.1 p.2) acc
  | [], f, acc, hf, _ => by
    cases f with
    | zero => omega
    | succ f => simp [joinAmp, parseQueryAux]
  | [p], f, acc, hf, hb => by
    cases f with
    | zero => omega
    | succ f =>
      simp only [List.map, joinAmp]
      rw [parseQueryAux_cons encodePair_ne_nil]
      rw [cutByte_not_mem encodePair_not38]
      obtain ⟨h1, h2⟩ := hb p (by simp)
      simp only [queryPairStep_encoded h1 h2, List.foldl]
  | p :: q :: tl, f, acc, hf, hb => by
    cases f with
    | zero => omega
    | succ f =>
      simp only [List.map, joinAmp]
      rw [parseQueryAux_cons (by
        intro e
        exact encodePair_ne_nil (List.append_eq_nil.mp e).1)]
      rw [cutByte_split _ encodePair_not38]
      obtain ⟨h1, h2⟩ := hb p (by simp)
      simp only [queryPairStep_encoded h1 h2]
      have ih := parseQuery_encodePairs (q :: tl) f (appendVal acc p.1 p.2)
        (by simp only [List.length_cons] at hf ⊢; omega)
        (fun r hr => hb r (List.mem_cons_of_mem _ hr))
      simpa [List.foldl] using ih

theorem appendVal_fresh (k v : B) : ∀ {acc : Values}, k ∉ keysV acc →
    appendVal acc k v = acc ++ [(k, [v])]
  | [], _ => rfl
  | (k0, vs0) :: tl, h => by
    simp only [keysV, List.map_cons, List.mem_cons, not_or] at h
    have hne : ¬ k0 = k := fun e => h.1 e.symm
    simp only [appendVal, if_neg hne, List.cons_append, List.cons.injEq, true_and]
    exact appendVal_fresh k v (by simpa [keysV] using h.2)

theorem foldl_appendVal_fresh :
    ∀ (ps : List (B × B)) (acc : Values),
      (∀ p ∈ ps, p.1 ∉ keysV acc) →
      (ps.map Prod.fst).Nodup →
      ps.foldl (fun a p => appendVal a p.1 p.2) acc
        = acc ++ ps.map (fun p => (p.1, [p.2]))
  | [], acc, _, _ => by simp
  | p :: tl, acc, hfresh, hnd => by
    simp only [List.map_cons, List.nodup_cons] at hnd
    simp only [List.foldl, appendVal_fresh p.1 p.2 (hfresh p (by simp))]
    rw [foldl_appendVal_fresh tl (acc ++ [(p.1, [p.2])])
      (by
        intro r hr
        have h1 : r.1 ∉ keysV acc := hfresh r (List.mem_cons_of_mem _ hr)
        have h2 : r.1 ≠ p.1 := by
          intro e
          exact hnd.1 (e ▸ List.mem_map_of_mem Prod.fst hr)
        intro hmem
        rw [keysV, List.map_append] at hmem
        rcases List.mem_append.mp hmem with hm | hm
        · exact h1 hm
        · simp only [List.map_cons, List.map_nil, List.mem_singleton] at hm
          exact h2 hm)
      hnd.2]
    simp

theorem encodePairs_single : ∀ {q : Values}, allSingle q = true →
    encodePairs q = q.map (fun kv => encodePair kv.1 (kv.2.headD []))
  | [], _ => rfl
  | (k, vs) :: tl, h => by
    simp only [allSingle, List.all_cons, Bool.and_eq_true, decide_eq_true_eq] at h
    obtain ⟨v, rfl⟩ := List.length_eq_one.mp h.1
    simp only [encodePairs, List.map_cons, List.map_nil, List.headD_cons,
      List.singleton_append, List.cons.injEq, true_and]
    exact encodePairs_single (by simpa [allSingle] using h.2)

theorem map_headD_single : ∀ {q : Values}, allSingle q = true →
    (q.map (fun kv => (kv.1, kv.2.headD []))).map (fun p => (p.1, [p.2])) = q
  | [], _ => rfl
  | (k, vs) :: tl, h => by
    simp only [allSingle, List.all_cons, Bool.and_eq_true, decide_eq_true_eq] at h
    obtain ⟨v, rfl⟩ := List.length_eq_one.mp h.1
    simp only [List.map_cons, List.headD_cons, List.cons.injEq, true_and]
    exact map_headD_single (by simpa [allSingle] using h.2)

theorem insValue_perm (k : B) (vs : List B) :
    ∀ l : Values, (insValue k vs l).Perm ((k, vs) :: l)
  | [] => by simp [insValue]
  | (k0, vs0) :: tl => by
    by_cases hle : lexLe k k0 = true
    · simp [insValue, hle]
    · simp only [insValue, hle, Bool.false_eq_true, if_false]
      exact ((insValue_perm k vs tl).cons (k0, vs0)).trans (List.Perm.swap _ _ _)

theorem sortValues_perm : ∀ l : Values, (sortValues l).Perm l
  | [] => by simp [sortValues]
  | (k, vs) :: tl => by
    simp only [sortValues]
    exact (insValue_perm k vs (sortValues tl)).trans ((sortValues_perm tl).cons (k, vs))

theorem all_of_perm {α : Type} {p : α → Bool} {l1 l2 : List α} (hp : l1.Perm l2)
    (h : l2.all p = true) : l1.all p = true := by
  simp only [List.all_eq_true] at h ⊢
  exact fun a ha => h a (hp.mem_iff.mp ha)

theorem parseQuery_encodeValues {vals : Values}
    (hs : allSingle vals = true) (hb : valuesLt vals = true)
    (hnd : (keysV vals).Nodup) :
    parseQueryValues (encodeValues vals) = sortValues vals := by
  have hperm := sortValues_perm vals
  have hs' : allSingle (sortValues vals) = true := all_of_perm hperm hs
  have hb' : valuesLt (sortValues vals) = true := all_of_perm hperm hb
  have hnd' : (keysV (sortValues vals)).Nodup :=
    ((hperm.map Prod.fst).symm).nodup hnd
  have hpair : ∀ p ∈ (sortValues vals).map (fun kv => (kv.1, kv.2.headD [])),
      bytesLt p.1 = true ∧ bytesLt p.2 = true := by
    intro p hp
    obtain ⟨kv, hkv, rfl⟩ := List.mem_map.mp hp
    have hkv2 := (List.all_eq_true.mp hb') kv hkv
    simp only [Bool.and_eq_true] at hkv2
    refine ⟨hkv2.1, ?_⟩
    have h1 := (List.all_eq_true.mp hs') kv hkv
    simp only [decide_eq_true_eq] at h1
    obtain ⟨v, hv⟩ := List.length_eq_one.mp h1
    rw [hv]
    have := (List.all_eq_true.mp hkv2.2) v (by rw [hv]; simp)
    simpa using this
  have hjoin : encodeValues vals
      = joinAmp (((sortValues vals).map (fun kv => (kv.1, kv.2.headD []))).map
          (fun p => encodePair p.1 p.2)) := by
    rw [encodeValues, encodePairs_single hs', List.map_map]
    rfl
  have hlen : ((sortValues vals).map (fun kv => (kv.1, kv.2.headD []))).length
      < (encodeValues vals).length + 1 := by
    rw [hjoin]
    have := joinAmp_length (((sortValues vals).map
        (fun kv => (kv.1, kv.2.headD []))).map (fun p => encodePair p.1 p.2))
      (by
        intro x hx
        obtain ⟨pp, _, rfl⟩ := List.mem_map.mp hx
        exact encodePair_len)
    simp only [List.length_map] at this ⊢
    omega
  rw [parseQueryValues, hjoin]
  rw [show (joinAmp (((sortValues vals).map (fun kv => (kv.1, kv.2.headD []))).map
      (fun p => encodePair p.1 p.2))).length = (encodeValues vals).length by
    rw [hjoin]]
  rw [parseQuery_encodePairs _ _ [] hlen hpair]
  rw [foldl_appendVal_fresh _ [] (by simp [keysV]) (by
    have : ((sortValues vals).map (fun kv => (kv.1, kv.2.headD []))).map Prod.fst
        = keysV (sortValues vals) := by
      simp [keysV, List.map_map]
    rw [this]
    exact hnd')]
  rw [List.nil_append]
  exact map_headD_single hs'

theorem bytesLt_of_mem {s : B} (h : ∀ c ∈ s, c < 256) : bytesLt s = true := by
  simp only [bytesLt, List.all_eq_true, decide_eq_true_eq]
  exact h

theorem mem_of_bytesLt {s : B} (h : bytesLt s = true) : ∀ c ∈ s, c < 256 := by
  simpa [bytesLt, List.all_eq_true] using h

theorem queryUnescape_lt : ∀ (s r : B), (∀ c ∈ s, c < 256) →
    queryUnescape s = some r → ∀ c ∈ r, c < 256
  | [], r, _, h => by
    simp only [queryUnescape, Option.some.injEq] at h
    subst h
    simp
  | c0 :: rest, r, hs, h => by
    by_cases h37 : c0 = 37
    · subst h37
      cases rest with
      | nil =>
        rw [show queryUnescape [37] = none from rfl] at h
        exact Option.noConfusion h
      | cons d1 rest1 =>
        cases rest1 with
        | nil =>
          rw [show queryUnescape [37, d1] = none from rfl] at h
          exact Option.noConfusion h
        | cons d2 rest2 =>
          simp only [queryUnescape] at h
          cases ha : hexVal d1 with
          | none => rw [ha] at h; simp at h
          | some a =>
            cases hb : hexVal d2 with
            | none => rw [ha, hb] at h; simp at h
            | some b0 =>
              rw [ha, hb] at h
              obtain ⟨r0, hq, rfl⟩ := Option.map_eq_some'.mp h
              intro c hc
              rcases List.mem_cons.mp hc with rfl | hc
              · have := hexVal_lt ha
                have := hexVal_lt hb
                omega
              · exact queryUnescape_lt rest2 r0
                  (fun d hd => hs d (by simp [hd])) hq c hc
    · by_cases h43 : c0 = 43
      · subst h43
        rw [qu_plus] at h
        obtain ⟨r0, hq, rfl⟩ := Option.map_eq_some'.mp h
        intro c hc
        rcases List.mem_cons.mp hc with rfl | hc
        · omega
        · exact queryUnescape_lt rest r0 (fun d hd => hs d (by simp [hd])) hq c hc
      · rw [qu_plain rest h37 h43] at h
        obtain ⟨r0, hq, rfl⟩ := Option.map_eq_some'.mp h
        intro c hc
        rcases List.mem_cons.mp hc with rfl | hc
        · exact hs _ (by simp)
        · exact queryUnescape_lt rest r0 (fun d hd => hs d (by simp [hd])) hq c hc

theorem queryPairStep_spec (kv : B) (acc : Values) :
    queryPairStep kv acc = acc ∨
    ∃ k v, queryPairStep kv acc = appendVal acc k v
      ∧ queryUnescape (cutByte 61 kv).1 = some k
      ∧ queryUnescape ((cutByte 61 kv).2.getD []) = some v := by
  unfold queryPairStep
  by_cases h59 : containsSub kv [59] = true
  · left
    simp [h59]
  · by_cases hnil : kv = []
    · left
      simp [h59, hnil]
    · cases hk : queryUnescape (cutByte 61 kv).1 with
      | none =>
        left
        simp [h59, hnil, hk]
      | some k =>
        cases hv : queryUnescape ((cutByte 61 kv).2.getD []) with
        | none =>
          left
          simp [h59, hnil, hk, hv]
        | some v =>
          right
          exact ⟨k, v, by simp [h59, hnil, hk, hv], rfl, rfl⟩

theorem valuesLt_appendVal : ∀ {acc : Values} {k v : B}, valuesLt acc = true →
    bytesLt k = true → bytesLt v = true → valuesLt (appendVal acc k v) = true
  | [], k, v, _, hk, hv => by simp [appendVal, valuesLt, hk, hv]
  | (k0, vs0) :: tl, k, v, ha, hk, hv => by
    simp only [valuesLt, List.all_cons, Bool.and_eq_true] at ha
    by_cases he : k0 = k
    · simp only [appendVal, if_pos he, valuesLt, List.all_cons, Bool.and_eq_true]
      refine ⟨⟨ha.1.1, ?_⟩, ha.2⟩
      simp only [List.all_append, Bool.and_eq_true]
      exact ⟨ha.1.2, by simp [hv]⟩
    · simp only [appendVal, if_neg he, valuesLt, List.all_cons, Bool.and_eq_true]
      exact ⟨ha.1, valuesLt_appendVal ha.2 hk hv⟩

theorem valuesLt_queryPairStep {kv : B} {acc : Values}
    (hkv : ∀ c ∈ kv, c < 256) (ha : valuesLt acc = true) :
    valuesLt (queryPairStep kv acc) = true := by
  rcases queryPairStep_spec kv acc with h | ⟨k, v, heq, hk, hv⟩
  · rw [h]
    exact ha
  · rw [heq]
    have hkb : bytesLt k = true := bytesLt_of_mem
      (queryUnescape_lt _ _ (fun c hc => hkv c (cutByte_mem1 hc)) hk)
    have hvb : bytesLt v = true := by
      cases h2 : (cutByte 61 kv).2 with
      | none =>
        rw [h2] at hv
        simp only [Option.getD_none, queryUnescape, Option.some.injEq] at hv
        subst hv
        rfl
      | some r =>
        rw [h2] at hv
        simp only [Option.getD_some] at hv
        exact bytesLt_of_mem
          (queryUnescape_lt _ _ (fun c hc => hkv c (cutByte_mem2 h2 hc)) hv)
    exact valuesLt_appendVal ha hkb hvb

theorem valuesLt_parseQueryAux : ∀ (f : Nat) (q : B) (acc : Values),
    (∀ c ∈ q, c < 256) → valuesLt acc = true →
    valuesLt (parseQueryAux f q acc) = true
  | 0, _, _, _, ha => ha
  | f + 1, q, acc, hq, ha => by
    cases q with
    | nil => exact ha
    | cons c x =>
      rw [parseQueryAux_cons (by simp) acc]
      have hchunk : ∀ d ∈ (cutByte 38 (c :: x)).1, d < 256 :=
        fun d hd => hq d (cutByte_mem1 hd)
      cases h2 : (cutByte 38 (c :: x)).2 with
      | none => exact valuesLt_queryPairStep hchunk ha
      | some rest =>
        exact valuesLt_parseQueryAux f rest _
          (fun d hd => hq d (cutByte_mem2 h2 hd)) (valuesLt_queryPairStep hchunk ha)

theorem valuesLt_parseQueryValues {q : B} (h : ∀ c ∈ q, c < 256) :
    valuesLt (parseQueryValues q) = true :=
  valuesLt_parseQueryAux _ _ [] h rfl

theorem keysV_appendVal_mem : ∀ {acc : Values} {k v x : B},
    x ∈ keysV (appendVal acc k v) → x ∈ keysV acc ∨ x = k
  | [], k, v, x, h => by
    right
    simpa [appendVal, keysV] using h
  | (k0, vs0) :: tl, k, v, x, h => by
    by_cases he : k0 = k
    · simp only [appendVal, if_pos he, keysV, List.map_cons, List.mem_cons] at h ⊢
      exact Or.inl h
    · simp only [appendVal, if_neg he, keysV, List.map_cons, List.mem_cons] at h ⊢
      rcases h with rfl | h
      · exact Or.inl (Or.inl rfl)
      · rcases keysV_appendVal_mem h with h | h
        · exact Or.inl (Or.inr h)
        · exact Or.inr h

theorem keysV_appendVal_nodup : ∀ {acc : Values} {k v : B},
    (keysV acc).Nodup → (keysV (appendVal acc k v)).Nodup
  | [], k, v, _ => by simp [appendVal, keysV]
  | (k0, vs0) :: tl, k, v, h => by
    simp only [keysV, List.map_cons, List.nodup_cons] at h
    by_cases he : k0 = k
    · simp only [appendVal, if_pos he, keysV, List.map_cons, List.nodup_cons]
      exact h
    · simp only [appendVal, if_neg he, keysV, List.map_cons, List.nodup_cons]
      refine ⟨?_, keysV_appendVal_nodup h.2⟩
      intro hmem
      rcases keysV_appendVal_mem hmem with hm | hm
      · exact h.1 hm
      · exact he hm

theorem keysV_queryPairStep_nodup {kv : B} {acc : Values}
    (h : (keysV acc).Nodup) : (keysV (queryPairStep kv acc)).Nodup := by
  rcases queryPairStep_spec kv acc with he | ⟨k, v, heq, _, _⟩
  · rw [he]
    exact h
  · rw [heq]
    exact keysV_appendVal_nodup h

theorem keysV_parseQueryAux_nodup : ∀ (f : Nat) (q : B) (acc : Values),
    (keysV acc).Nodup → (keysV (parseQueryAux f q acc)).Nodup
  | 0, _, _, h => h
  | f + 1, q, acc, h => by
    cases q with
    | nil => exact h
    | cons c x =>
      rw [parseQueryAux_cons (by simp) acc]
      cases h2 : (cutByte 38 (c :: x)).2 with
      | none => exact keysV_queryPairStep_nodup h
      | some rest =>
        exact keysV_parseQueryAux_nodup f rest _ (keysV_queryPairStep_nodup h)

theorem keysV_parseQueryValues_nodup (q : B) :
    (keysV (parseQueryValues q)).Nodup :=
  keysV_parseQueryAux_nodup _ _ [] (by simp [keysV])

theorem lookupVals_of_perm {l1 l2 : Values} (hp : l1.Perm l2) :
    (keysV l1).Nodup → ∀ k, lookupVals k l1 = lookupVals k l2 := by
  induction hp with
  | nil =>
    intro _ k
    rfl
  | cons x hp ih =>
    intro hnd k
    obtain ⟨kx, vx⟩ := x
    simp only [lookupVals]
    by_cases he : kx = k
    · simp [he]
    · simp only [if_neg he]
      refine ih ?_ k
      simp only [keysV, List.map_cons, List.nodup_cons] at hnd
      exact hnd.2
  | swap x y l =>
    intro hnd k
    obtain ⟨kx, vx⟩ := x
    obtain ⟨ky, vy⟩ := y
    simp only [keysV, List.map_cons, List.nodup_cons, List.mem_cons] at hnd
    have hxy : ¬ ky = kx := fun e => hnd.1 (Or.inl e)
    by_cases h1 : ky = k
    · by_cases h2 : kx = k
      · exact absurd (h1.trans h2.symm) hxy
      · simp [lookupVals, h1, h2]
    · by_cases h2 : kx = k
      · simp [lookupVals, h1, h2]
      · simp [lookupVals, h1, h2]
  | trans h1 h2 ih1 ih2 =>
    intro hnd k
    rw [ih1 hnd k, ih2 ((h1.map Prod.fst).nodup hnd) k]

theorem lookupVals_of_mem {k : B} {vs : List B} : ∀ {q : Values},
    (keysV q).Nodup → (k, vs) ∈ q → lookupVals k q = some vs
  | [], _, h => absurd h (by simp)
  | (k0, vs0) :: tl, hnd, h => by
    rcases List.mem_cons.mp h with he | ht
    · rw [Prod.ext_iff] at he
      obtain ⟨he1, he2⟩ := he
      simp only at he1 he2
      subst he1
      simp [lookupVals, he2]
    · have hk0 : ¬ k0 = k := by
        intro e
        subst e
        simp only [keysV, List.map_cons, List.nodup_cons] at hnd
        exact hnd.1 (List.mem_map_of_mem Prod.fst ht)
      simp only [lookupVals, if_neg hk0]
      refine lookupVals_of_mem ?_ ht
      simp only [keysV, List.map_cons, List.nodup_cons] at hnd
      exact hnd.2

theorem lookupVals_redactValues (extras : List B) (k : B) : ∀ q : Values,
    lookupVals k (redactValues extras q)
      = (lookupVals k q).map (fun vs =>
          [if IsSensitiveKey k || containsFold extras k then RedactionMask
           else TruncatePreview (vs.headD [])])
  | [] => rfl
  | (k0, vs0) :: tl => by
    by_cases he : k0 = k
    · subst he
      simp [redactValues, lookupVals]
    · simp only [redactValues, List.map_cons, lookupVals, if_neg he]
      exact lookupVals_redactValues extras k tl

theorem keysV_redactValues (extras : List B) (q : Values) :
    keysV (redactValues extras q) = keysV q := by
  simp [keysV, redactValues, List.map_map]

theorem allSingle_redactValues (extras : List B) (q : Values) :
    allSingle (redactValues extras q) = true := by
  simp [allSingle, redactValues, List.all_map]

theorem TruncatePreview_mem {s : B} {c : Nat} (h : c ∈ TruncatePreview s) :
    c ∈ s ∨ c ∈ ellipsisBytes := by
  unfold TruncatePreview at h
  split at h
  · exact Or.inl h
  · rcases List.mem_append.mp h with h1 | h1
    · rcases List.mem_append.mp h1 with h2 | h2
      · exact Or.inl (List.take_subset _ _ h2)
      · exact Or.inr h2
    · exact Or.inl (List.drop_subset _ _ h1)

theorem valuesLt_redactValues {extras : List B} : ∀ {q : Values},
    valuesLt q = true → valuesLt (redactValues extras q) = true
  | [], _ => rfl
  | (k0, vs0) :: tl, h => by
    simp only [valuesLt, List.all_cons, Bool.and_eq_true] at h
    obtain ⟨⟨hk, hv⟩, htl⟩ := h
    simp only [redactValues, List.map_cons, valuesLt, List.all_cons,
      Bool.and_eq_true]
    refine ⟨⟨hk, ?_⟩, valuesLt_redactValues htl⟩
    simp only [List.all_cons, List.all_nil, Bool.and_true, Bool.and_eq_true]
    refine ⟨?_, trivial⟩
    by_cases hsens : (IsSensitiveKey k0 || containsFold extras k0) = true
    · rw [if_pos hsens]
      decide
    · rw [if_neg hsens]
      apply bytesLt_of_mem
      intro c hc
      rcases TruncatePreview_mem hc with hm | hm
      · cases vs0 with
        | nil => simp at hm
        | cons v0 vrest =>
          simp only [List.headD_cons] at hm
          have hall := (List.all_eq_true.mp hv) v0 (by simp)
          exact mem_of_bytesLt hall c hm
      · simp only [ellipsisBytes, List.mem_cons, List.not_mem_nil, or_false] at hm
        omega

/-- C6 counterexample: the query parser inside `u.Query()` silently drops a
parameter whose name contains an invalid percent-escape, so the URL
`https://x/y?a%zz=1` parses successfully yet the redactor's output is
`https://x/y` — the parameter name `a%zz` does not pass through. -/
theorem C6_url_query_counterexample :
    (parseURL (asciiBytes "https://x/y?a%zz=1")).isSome = true
    ∧ RedactURLQuery (asciiBytes "https://x/y?a%zz=1") [] = asciiBytes "https://x/y"
    ∧ containsSub (RedactURLQuery (asciiBytes "https://x/y?a%zz=1") [])
        (asciiBytes "a%zz") = false := by
  refine ⟨rfl, by decide, by decide⟩

/-- C6 (amended): on parse failure the URL Query Redactor returns the input
unchanged; on success the output is exactly the parsed URL re-serialized
with only its raw query replaced (scheme, host and path components are
carried over unchanged at the structure level); every query parameter that
the query parser retains is mapped to the mask when its name is sensitive
or matches a caller-supplied extra, and to the preview of its first value
otherwise; parameters the query parser drops (undecodable or
semicolon-containing pairs) vanish, so not every parameter name passes
through. The concrete example redacts as claimed. -/
theorem C6_url_query_redaction_amended :
    (∀ (raw : B) (extras : List B), parseURL raw = none →
      RedactURLQuery raw extras = raw)
    ∧ (∀ (raw : B) (extras : List B) (u : GoURL), parseURL raw = some u →
        RedactURLQuery raw extras = urlString { u with
          rawQuery := encodeValues (redactValues extras
            (parseQueryValues u.rawQuery)) })
    ∧ (∀ (extras : List B) (q k : B) (vs : List B),
        (k, vs) ∈ parseQueryValues q →
        (k, [if IsSensitiveKey k || containsFold extras k then RedactionMask
             else TruncatePreview (vs.headD [])])
          ∈ redactValues extras (parseQueryValues q))
    ∧ RedactURLQuery (asciiBytes "https://x/y?token=abcdef123456&page=2") []
        = asciiBytes "https://x/y?page=2&token=%2A%2A%2A%2A" := by
  refine ⟨?_, ?_, ?_, by decide⟩
  · intro raw extras h
    simp [RedactURLQuery, h]
  · intro raw extras u h
    simp [RedactURLQuery, h]
  · intro extras q k vs h
    exact List.mem_map_of_mem _ h

/-- C10: when the parsed query carries several values under one parameter
name, the redactor keeps exactly one value for that name in the output
query — the mask for a sensitive or extra-listed name, otherwise the
preview of the first value — so every value after the first is dropped. -/
theorem C10_multivalue_collapse (raw : B) (extras : List B) (u : GoURL) (k : B)
    (vs : List B) (hu : parseURL raw = some u)
    (hb : ∀ c ∈ u.rawQuery, c < 256)
    (hk : (k, vs) ∈ parseQueryValues u.rawQuery)
    (hm : 2 ≤ vs.length) :
    ∃ q' : B, RedactURLQuery raw extras = urlString { u with rawQuery := q' }
      ∧ lookupVals k (parseQueryValues q')
          = some [if IsSensitiveKey k || containsFold extras k then RedactionMask
                  else TruncatePreview (vs.headD [])] := by
  refine ⟨encodeValues (redactValues extras (parseQueryValues u.rawQuery)), ?_, ?_⟩
  · simp [RedactURLQuery, hu]
  · have hvl : valuesLt (parseQueryValues u.rawQuery) = true :=
      valuesLt_parseQueryValues hb
    have hnd : (keysV (parseQueryValues u.rawQuery)).Nodup :=
      keysV_parseQueryValues_nodup u.rawQuery
    have hnd2 : (keysV (redactValues extras (parseQueryValues u.rawQuery))).Nodup := by
      rw [keysV_redactValues]
      exact hnd
    rw [parseQuery_encodeValues (allSingle_redactValues _ _)
      (valuesLt_redactValues hvl) hnd2]
    rw [lookupVals_of_perm (sortValues_perm _)
      (((sortValues_perm _).map Prod.fst).symm.nodup hnd2) k]
    rw [lookupVals_redactValues]
    rw [lookupVals_of_mem hnd hk]
    rfl

/-- C10 witness at `https://x/y?a=1&a=2`: the parameter `a` arrives with
the two values `1` and `2` and leaves with exactly one. -/
theorem C10_multivalue_collapse_witness :
    ∃ q' : B, RedactURLQuery (asciiBytes "https://x/y?a=1&a=2") []
        = urlString
            { scheme := asciiBytes "https", host := asciiBytes "x",
              path := asciiBytes "/y", rawPath := asciiBytes "/y",
              rawQuery := q' }
      ∧ lookupVals (asciiBytes "a") (parseQueryValues q')
          = some [if IsSensitiveKey (asciiBytes "a")
                      || containsFold [] (asciiBytes "a")
                  then RedactionMask
                  else TruncatePreview (([asciiBytes "1",
                    asciiBytes "2"]).headD [])] :=
  C10_multivalue_collapse (asciiBytes "https://x/y?a=1&a=2") []
    { scheme := asciiBytes "https", host := asciiBytes "x",
      path := asciiBytes "/y", rawPath := asciiBytes "/y",
      rawQuery := asciiBytes "a=1&a=2" }
    (asciiBytes "a") [asciiBytes "1", asciiBytes "2"]
    (by rfl) (by decide) (by decide) (by decide)

end Ygg
